import Mathlib

/-!
Verification development for the deployment reconciliation and
dependency-ordering engine of the VisaDeployReport repository
(src/Deploy/Common).  The Python source is shallowly embedded: pure
fragments become Lean functions, remote I/O is abstracted into explicit
oracle parameters (observation sequences, call outcomes), and raised
exceptions become Except values.
-/

namespace VisaDeploy

/-! ## String helpers

Python's str.lower / str.strip, modelled directly over the character
data of the string (lower maps each character; strip removes leading and
trailing whitespace). -/

def pyLower (s : String) : String := ⟨s.data.map Char.toLower⟩

def pyStrip (s : String) : String :=
  ⟨((s.data.dropWhile Char.isWhitespace).reverse.dropWhile Char.isWhitespace).reverse⟩

/-- Python s.lower().strip(), the normalisation applied to JSON keys and
type tags throughout workspace_item_utilities.py. -/
def pyNorm (s : String) : String := pyStrip (pyLower s)

/-! ## JSON values

Pipeline bodies (pipeline-content.json) are parsed by the Python source
with json.loads into nested dicts/lists/scalars;
find_execute_pipeline_activities walks that structure.  Jsonish embeds
such parsed documents; obj keeps the dict's key insertion order. -/

inductive Jsonish where
  | str (s : String)
  | num (n : Int)
  | bool (b : Bool)
  | null
  | obj (fields : List (String × Jsonish))
  | arr (elems : List Jsonish)

/-- Python truthiness of a JSON value (used for the if referenced_id check). -/
def jtruthy : Jsonish → Bool
  | .str s => decide (s ≠ "")
  | .num n => decide (n ≠ 0)
  | .bool b => b
  | .null => false
  | .obj f => !f.isEmpty
  | .arr l => !l.isEmpty

/-- Python dict.get(k, default {}) on a dict given by its field list. -/
def wholeGet (fields : List (String × Jsonish)) (k : String) : Jsonish :=
  ((fields.find? (fun p => p.1 = k)).map Prod.snd).getD (.obj [])

/-- Python value.get(k, default {}): AttributeError (modelled as .error) when
the value is not a dict. -/
def pyGetD (j : Jsonish) (k : String) : Except String Jsonish :=
  match j with
  | .obj fields => .ok (wholeGet fields k)
  | _ => .error "AttributeError"

/-- Python value.get(k) with no default: None when the key is absent,
AttributeError when the value is not a dict. -/
def pyGetOpt (j : Jsonish) (k : String) : Except String (Option Jsonish) :=
  match j with
  | .obj fields => .ok ((fields.find? (fun p => p.1 = k)).map Prod.snd)
  | _ => .error "AttributeError"

/-! ## convert_id_to_name and find_referenced_datapipelines
(workspace_item_utilities.py lines 484-539)

The lookup dictionary (repository_items_list / deployed_items_list
restricted to the pipeline item type) is abstracted as an association
list of (item_name, id) pairs in insertion order, where id is the
logical_id (Repository mode) or the guid (Deployed mode); the remote /
filesystem fetch that produces it is outside the pure fragment. -/

/-- convert_id_to_name: first item whose stored id equals the reference;
None when nothing matches.  A non-string generic_id never equals a stored
string id in Python, hence none. -/
def convert_id_to_name (repo : List (String × String)) (genericId : Jsonish) : Option String :=
  match genericId with
  | .str s => (repo.find? (fun p => p.2 = s)).map Prod.fst
  | _ => none

/-- The reference id extracted while visiting key/value pair (k, v) of the
dict whose full field list is whole: ExecutePipeline activities carry it at
typeProperties.pipeline.referenceName, InvokePipeline at
typeProperties.pipelineId.  Errors model Python AttributeError crashes
(lower() on a non-string type tag, .get on a non-dict). -/
def refIdAt (whole : List (String × Jsonish)) (k : String) (v : Jsonish) :
    Except String (Option Jsonish) :=
  if pyNorm k = "type" then
    match v with
    | .str s =>
      if pyNorm s = "executepipeline" then
        (pyGetD (wholeGet whole "typeProperties") "pipeline").bind fun pl =>
          pyGetOpt pl "referenceName"
      else if pyNorm s = "invokepipeline" then
        pyGetOpt (wholeGet whole "typeProperties") "pipelineId"
      else .ok none
    | _ => .error "AttributeError"
  else .ok none

mutual

/-- find_referenced_datapipelines' inner recursion
find_execute_pipeline_activities: deep scan of a pipeline body collecting
the names of referenced pipelines; a reference whose id does not resolve
through convert_id_to_name contributes nothing. -/
def findRefsJ (repo : List (String × String)) : Jsonish → Except String (List String)
  | .obj fields => findRefsFields repo fields fields
  | .arr elems => findRefsArr repo elems
  | _ => .ok []

def findRefsFields (repo : List (String × String)) (whole : List (String × Jsonish)) :
    List (String × Jsonish) → Except String (List String)
  | [] => .ok []
  | (k, v) :: rest => do
    let rid ← refIdAt whole k v
    let here ←
      match rid with
      | some r =>
        if jtruthy r then pure (convert_id_to_name repo r).toList
        else findRefsJ repo v
      | none => findRefsJ repo v
    let there ← findRefsFields repo whole rest
    pure (here ++ there)

def findRefsArr (repo : List (String × String)) : List Jsonish → Except String (List String)
  | [] => .ok []
  | j :: rest => do
    let here ← findRefsJ repo j
    let there ← findRefsArr repo rest
    pure (here ++ there)

end

/-- find_referenced_datapipelines (workspace_item_utilities.py line 504):
runs the deep scan on the parsed pipeline content. -/
def find_referenced_datapipelines (repo : List (String × String)) (itemContent : Jsonish) :
    Except String (List String) :=
  findRefsJ repo itemContent

mutual

/-- All truthy reference ids occurring in a body, in scan order, before any
name resolution (the spec-side mirror of the traversal used to show which
references find_referenced_datapipelines drops). -/
def extractIdsJ : Jsonish → List Jsonish
  | .obj fields => extractIdsFields fields fields
  | .arr elems => extractIdsArr elems
  | _ => []

def extractIdsFields (whole : List (String × Jsonish)) :
    List (String × Jsonish) → List Jsonish
  | [] => []
  | (k, v) :: rest =>
    (match refIdAt whole k v with
     | .ok (some r) => if jtruthy r then [r] else extractIdsJ v
     | _ => extractIdsJ v) ++ extractIdsFields whole rest

def extractIdsArr : List Jsonish → List Jsonish
  | [] => []
  | j :: rest => extractIdsJ j ++ extractIdsArr rest

end

/-! ## sort_datapipelines (workspace_item_utilities.py lines 651-685)

Kahn's algorithm over the reference graph.  graph is a
defaultdict(list), in_degree a defaultdict(int); both are embedded as
association lists in key insertion order, with the same lookup/update
semantics. -/

abbrev Graph := List (String × List String)
abbrev InDeg := List (String × Int)

def lookupList (g : Graph) (k : String) : List String :=
  ((g.find? (fun p => p.1 = k)).map Prod.snd).getD []

def lookupD (d : InDeg) (k : String) : Int :=
  ((d.find? (fun p => p.1 = k)).map Prod.snd).getD 0

/-- defaultdict(list): graph[k].append(item). -/
def appendTo (g : Graph) (k : String) (item : String) : Graph :=
  match g with
  | [] => [(k, [item])]
  | (k', l) :: rest =>
    if k' = k then (k', l ++ [item]) :: rest else (k', l) :: appendTo rest k item

/-- defaultdict(int): in_degree[k] += 1. -/
def bump (d : InDeg) (k : String) : InDeg :=
  match d with
  | [] => [(k, 1)]
  | (k', n) :: rest => if k' = k then (k', n + 1) :: rest else (k', n) :: bump rest k

/-- defaultdict(int): in_degree[k] -= 1 (creates the key at -1 if absent). -/
def decr (d : InDeg) (k : String) : InDeg :=
  match d with
  | [] => [(k, -1)]
  | (k', n) :: rest => if k' = k then (k', n - 1) :: rest else (k', n) :: decr rest k

/-- if item_name not in in_degree: in_degree[item_name] = 0 (defaultdict
semantics append the fresh key at the end exactly like bump/decr do). -/
def ensure (d : InDeg) (k : String) : InDeg :=
  match d with
  | [] => [(k, 0)]
  | (k', n) :: rest => if k' = k then (k', n) :: rest else (k', n) :: ensure rest k

/-- The inner loop over one item's resolved references: for each referenced
name r: graph[r].append(item); in_degree[item] += 1. -/
def addRefsLoop : Graph × InDeg → String → List String → Graph × InDeg
  | gd, _, [] => gd
  | (g, d), item, r :: rs => addRefsLoop (appendTo g r item, bump d item) item rs

/-- One iteration of the graph-building loop of sort_datapipelines:
process the item's references, then ensure the item has an in_degree
entry. -/
def addItem : Graph × InDeg → String × List String → Graph × InDeg
  | gd, (item, refs) =>
    let gd' := addRefsLoop gd item refs
    (gd'.1, ensure gd'.2 item)

def buildGD (ps : List (String × List String)) : Graph × InDeg :=
  ps.foldl addItem ([], [])

/-- Sum of the positive in-degrees; termination measure of the Kahn loop. -/
def degSum (d : InDeg) : Nat := (d.map (fun p => p.2.toNat)).sum

/-- Processing the out-neighbours of a dequeued node: decrement each
neighbour's in-degree in order and collect (in order) those that reach
exactly 0; Python appends them to the FIFO queue. -/
def step : InDeg → List String → InDeg × List String
  | d, [] => (d, [])
  | d, n :: rest =>
    let d' := decr d n
    let r := step d' rest
    if lookupD d' n = 0 then (r.1, n :: r.2) else r

theorem lookupD_nil (k : String) : lookupD [] k = 0 := rfl

theorem lookupD_cons (k' : String) (n : Int) (rest : InDeg) (k : String) :
    lookupD ((k', n) :: rest) k = if k' = k then n else lookupD rest k := by
  by_cases h : k' = k <;> simp [lookupD, List.find?_cons, h]

theorem degSum_nil : degSum [] = 0 := rfl

theorem degSum_cons (k : String) (n : Int) (rest : InDeg) :
    degSum ((k, n) :: rest) = n.toNat + degSum rest := by
  simp [degSum]

theorem lookupD_decr (d : InDeg) (k m : String) :
    lookupD (decr d k) m = if m = k then lookupD d m - 1 else lookupD d m := by
  induction d with
  | nil =>
    by_cases h : m = k
    · subst h; simp [decr, lookupD_cons, lookupD_nil]
    · simp [decr, lookupD_cons, lookupD_nil, Ne.symm h, h]
  | cons p rest ih =>
    obtain ⟨k', n⟩ := p
    by_cases hk : k' = k
    · subst hk
      by_cases hm : m = k'
      · subst hm; simp [decr, lookupD_cons]
      · simp [decr, lookupD_cons, Ne.symm hm, hm]
    · by_cases hm : m = k'
      · subst hm
        have hd : decr ((m, n) :: rest) k = (m, n) :: decr rest k := by
          simp [decr, hk]
        have hmk : ¬ m = k := hk
        rw [hd, lookupD_cons, if_pos rfl, if_neg hmk, lookupD_cons, if_pos rfl]
      · have hd : decr ((k', n) :: rest) k = (k', n) :: decr rest k := by
          simp [decr, hk]
        rw [hd, lookupD_cons, if_neg (Ne.symm hm), lookupD_cons, if_neg (Ne.symm hm), ih]

theorem decr_cons_self (k : String) (n : Int) (rest : InDeg) :
    decr ((k, n) :: rest) k = (k, n - 1) :: rest := by
  simp [decr]

theorem decr_cons_ne (k' : String) (n : Int) (rest : InDeg) (k : String) (hk : ¬ k' = k) :
    decr ((k', n) :: rest) k = (k', n) :: decr rest k := by
  simp [decr, hk]

theorem degSum_decr_le (d : InDeg) (k : String) : degSum (decr d k) ≤ degSum d := by
  induction d with
  | nil => simp [decr, degSum_cons, degSum_nil]
  | cons p rest ih =>
    obtain ⟨k', n⟩ := p
    by_cases hk : k' = k
    · subst hk
      rw [decr_cons_self, degSum_cons, degSum_cons]
      omega
    · rw [decr_cons_ne k' n rest k hk, degSum_cons, degSum_cons]
      omega

theorem degSum_decr_lt (d : InDeg) (k : String) (h : 0 < lookupD d k) :
    degSum (decr d k) < degSum d := by
  induction d with
  | nil => simp [lookupD_nil] at h
  | cons p rest ih =>
    obtain ⟨k', n⟩ := p
    by_cases hk : k' = k
    · subst hk
      rw [lookupD_cons, if_pos rfl] at h
      rw [decr_cons_self, degSum_cons, degSum_cons]
      omega
    · have h' : 0 < lookupD rest k := by
        rw [lookupD_cons, if_neg hk] at h; exact h
      rw [decr_cons_ne k' n rest k hk, degSum_cons, degSum_cons]
      have := ih h'
      omega

theorem step_bound (nbrs : List String) (d : InDeg) :
    (step d nbrs).2.length + degSum (step d nbrs).1 ≤ degSum d := by
  induction nbrs generalizing d with
  | nil => simp [step]
  | cons n rest ih =>
    simp only [step]
    by_cases h0 : lookupD (decr d n) n = 0
    · simp only [if_pos h0, List.length_cons]
      have hlt : degSum (decr d n) < degSum d := by
        apply degSum_decr_lt
        have := lookupD_decr d n n
        simp at this
        omega
      have := ih (decr d n)
      omega
    · simp only [if_neg h0]
      have := ih (decr d n)
      have := degSum_decr_le d n
      omega

def kahnLoop (g : Graph) : List String → InDeg → List String → List String × InDeg
  | [], d, s => (s, d)
  | x :: rest, d, s =>
    let p := step d (lookupList g x)
    kahnLoop g (rest ++ p.2) p.1 (s ++ [x])
termination_by q d _ => q.length + degSum d
decreasing_by
  simp only [List.length_append, List.length_cons]
  have := step_bound (lookupList g x) d
  omega

/-- The initial FIFO queue: in_degree keys with value 0, in insertion order. -/
def zeroQueue (d : InDeg) : List String := (d.filter (fun p => p.2 = 0)).map Prod.fst

def cycleErrorMsg : String :=
  "Error in sorting datapipelines: A cycle was detected in the data pipeline dependencies. Cannot determine a valid publish order."

/-- The Kahn part of sort_datapipelines, operating on the already-resolved
per-pipeline reference name lists. -/
def sortByRefs (ps : List (String × List String)) : Except String (List String) :=
  let gd := buildGD ps
  let r := kahnLoop gd.1 (zeroQueue gd.2) gd.2 []
  if r.1.length = r.2.length then .ok r.1 else .error cycleErrorMsg

/-- The per-item reference resolution pass of sort_datapipelines
(find_referenced_datapipelines on each pipeline body, stopping at the
first error, like the Python loop). -/
def resolveRefs (repo : List (String × String)) :
    List (String × Jsonish) → Except String (List (String × List String))
  | [] => .ok []
  | (name, content) :: rest => do
    let refs ← find_referenced_datapipelines repo content
    let thereafter ← resolveRefs repo rest
    pure ((name, refs) :: thereafter)

/-- sort_datapipelines (workspace_item_utilities.py line 651): build the
dependency graph from the resolved references and topologically sort it;
any error is wrapped like the Python RuntimeError re-raise. -/
def sort_datapipelines (repo : List (String × String)) (pipelines : List (String × Jsonish)) :
    Except String (List String) :=
  match resolveRefs repo pipelines with
  | .error e => .error ("Error in sorting datapipelines: " ++ e)
  | .ok rl => sortByRefs rl

/-- The declared reference list of a node (empty for non-nodes). -/
def refsOf (ps : List (String × List String)) (v : String) : List String :=
  ((ps.find? (fun p => p.1 = v)).map Prod.snd).getD []

/-- v's resolved references include u, i.e. pipeline v invokes pipeline u
and so u must be published before v. -/
def references (ps : List (String × List String)) (u v : String) : Prop :=
  u ∈ refsOf ps v

instance (ps : List (String × List String)) (u v : String) :
    Decidable (references ps u v) := by
  unfold references; infer_instance

/-! ### Properties of the neighbour-processing pass -/

theorem step_fst (d : InDeg) (n : String) (rest : List String) :
    (step d (n :: rest)).1 = (step (decr d n) rest).1 := by
  simp only [step]
  by_cases h : lookupD (decr d n) n = 0 <;> simp [h]

theorem step_lookup (nbrs : List String) (d : InDeg) (v : String) :
    lookupD (step d nbrs).1 v = lookupD d v - (nbrs.count v : Int) := by
  induction nbrs generalizing d with
  | nil => simp [step]
  | cons n rest ih =>
    rw [step_fst, ih, lookupD_decr]
    by_cases h : v = n
    · subst h
      rw [if_pos rfl, List.count_cons_self]
      push_cast
      omega
    · rw [if_neg h, List.count_cons_of_ne h]

theorem step_snd_mem (nbrs : List String) (d : InDeg) (w : String)
    (h : w ∈ (step d nbrs).2) :
    1 ≤ lookupD d w ∧ lookupD d w ≤ (nbrs.count w : Int) ∧ w ∈ nbrs := by
  induction nbrs generalizing d with
  | nil => simp [step] at h
  | cons n rest ih =>
    have hcount : ((n :: rest).count w : Int) =
        (rest.count w : Int) + (if w = n then 1 else 0) := by
      by_cases hw : w = n
      · subst hw
        rw [List.count_cons_self, if_pos rfl]
        push_cast; omega
      · rw [List.count_cons_of_ne hw, if_neg hw]
        omega
    simp only [step] at h
    by_cases hc : lookupD (decr d n) n = 0
    · rw [if_pos hc] at h
      rcases List.mem_cons.mp h with hwn | hwr
      · subst hwn
        have hd := lookupD_decr d w w
        rw [if_pos rfl] at hd
        refine ⟨by omega, ?_, List.mem_cons_self _ _⟩
        rw [hcount, if_pos rfl]
        have hge : (0 : Int) ≤ (rest.count w : Int) := by positivity
        omega
      · obtain ⟨h1, h2, h3⟩ := ih (decr d n) hwr
        have hd := lookupD_decr d n w
        refine ⟨?_, ?_, List.mem_cons_of_mem _ h3⟩
        · by_cases hw : w = n
          · rw [if_pos hw] at hd; omega
          · rw [if_neg hw] at hd; omega
        · rw [hcount]
          by_cases hw : w = n
          · rw [if_pos hw] at hd; rw [if_pos hw]; omega
          · rw [if_neg hw] at hd; rw [if_neg hw]; omega
    · rw [if_neg hc] at h
      obtain ⟨h1, h2, h3⟩ := ih (decr d n) h
      have hd := lookupD_decr d n w
      constructor
      · by_cases hw : w = n
        · rw [if_pos hw] at hd; omega
        · rw [if_neg hw] at hd; omega
      constructor
      · rw [hcount]
        by_cases hw : w = n
        · rw [if_pos hw] at hd
          rw [if_pos hw]
          omega
        · rw [if_neg hw] at hd
          rw [if_neg hw]
          omega
      · exact List.mem_cons_of_mem _ h3

theorem step_snd_nodup (nbrs : List String) (d : InDeg) : (step d nbrs).2.Nodup := by
  induction nbrs generalizing d with
  | nil => simp [step]
  | cons n rest ih =>
    simp only [step]
    by_cases hc : lookupD (decr d n) n = 0
    · rw [if_pos hc]
      refine List.nodup_cons.mpr ⟨fun hmem => ?_, ih (decr d n)⟩
      have := (step_snd_mem rest (decr d n) n hmem).1
      omega
    · rw [if_neg hc]
      exact ih (decr d n)

theorem step_snd_complete (nbrs : List String) (d : InDeg) (w : String)
    (h0 : lookupD d w = (nbrs.count w : Int)) (hpos : 0 < nbrs.count w) :
    w ∈ (step d nbrs).2 := by
  induction nbrs generalizing d with
  | nil => simp at hpos
  | cons n rest ih =>
    simp only [step]
    by_cases hw : w = n
    · subst hw
      have hd := lookupD_decr d w w
      rw [if_pos rfl] at hd
      rw [List.count_cons_self] at h0
      by_cases hr : rest.count w = 0
      · have hzero : lookupD (decr d w) w = 0 := by
          rw [hd, h0]; push_cast; omega
        rw [if_pos hzero]
        exact List.mem_cons_self _ _
      · have : w ∈ (step (decr d w) rest).2 := by
          apply ih
          · rw [hd, h0]; push_cast; omega
          · omega
        by_cases hz : lookupD (decr d w) w = 0
        · rw [if_pos hz]; exact List.mem_cons_of_mem _ this
        · rw [if_neg hz]; exact this
    · have hd := lookupD_decr d n w
      rw [if_neg hw] at hd
      rw [List.count_cons_of_ne hw] at h0
      have hpos' : 0 < rest.count w := by
        rcases Nat.eq_zero_or_pos (rest.count w) with h | h
        · rw [h] at h0
          rw [List.count_cons_of_ne hw] at hpos
          omega
        · exact h
      have : w ∈ (step (decr d n) rest).2 := by
        apply ih
        · rw [hd, h0]
        · exact hpos'
      by_cases hz : lookupD (decr d n) n = 0
      · rw [if_pos hz]; exact List.mem_cons_of_mem _ this
      · rw [if_neg hz]; exact this

/-! ### Keys of the in-degree dictionary -/

def keysI (d : InDeg) : List String := d.map Prod.fst

theorem keysI_nil : keysI [] = [] := rfl

theorem keysI_cons (k : String) (n : Int) (rest : InDeg) :
    keysI ((k, n) :: rest) = k :: keysI rest := rfl

theorem keysI_decr (d : InDeg) (k : String) (h : k ∈ keysI d) :
    keysI (decr d k) = keysI d := by
  induction d with
  | nil => simp [keysI] at h
  | cons p rest ih =>
    obtain ⟨k', n⟩ := p
    by_cases hk : k' = k
    · subst hk; rw [decr_cons_self]; rfl
    · rw [decr_cons_ne k' n rest k hk]
      have hmem : k ∈ keysI rest := by
        rw [keysI_cons] at h
        rcases List.mem_cons.mp h with h1 | h1
        · exact absurd h1.symm hk
        · exact h1
      rw [keysI_cons, keysI_cons, ih hmem]

theorem keysI_step (nbrs : List String) (d : InDeg) (hn : ∀ n ∈ nbrs, n ∈ keysI d) :
    keysI (step d nbrs).1 = keysI d := by
  induction nbrs generalizing d with
  | nil => simp [step]
  | cons n rest ih =>
    rw [step_fst]
    have hk : keysI (decr d n) = keysI d :=
      keysI_decr d n (hn n (List.mem_cons_self _ _))
    rw [ih (decr d n) (fun m hm => by rw [hk]; exact hn m (List.mem_cons_of_mem _ hm)), hk]

theorem lookupD_of_mem_nodup (d : InDeg) (v : String) (n : Int)
    (hnd : (keysI d).Nodup) (h : (v, n) ∈ d) : lookupD d v = n := by
  induction d with
  | nil => simp at h
  | cons p rest ih =>
    obtain ⟨k', m⟩ := p
    rcases List.mem_cons.mp h with h1 | h1
    · obtain ⟨h2, h3⟩ := Prod.mk.injEq .. ▸ h1
      subst h2; subst h3
      rw [lookupD_cons, if_pos rfl]
    · have hk : ¬ k' = v := by
        intro hkv
        subst hkv
        have : k' ∈ keysI rest := List.mem_map.mpr ⟨(k', n), h1, rfl⟩
        exact (List.nodup_cons.mp hnd).1 this
      rw [lookupD_cons, if_neg hk]
      exact ih (List.nodup_cons.mp hnd).2 h1

theorem mem_keysI_lookupD (d : InDeg) (v : String) (h : v ∈ keysI d) :
    (v, lookupD d v) ∈ d := by
  induction d with
  | nil => simp [keysI] at h
  | cons p rest ih =>
    obtain ⟨k', m⟩ := p
    by_cases hk : k' = v
    · subst hk
      rw [lookupD_cons, if_pos rfl]
      exact List.mem_cons_self _ _
    · rw [lookupD_cons, if_neg hk]
      have hmem : v ∈ keysI rest := by
        rcases List.mem_cons.mp h with h1 | h1
        · exact absurd h1.symm hk
        · exact h1
      exact List.mem_cons_of_mem _ (ih hmem)

theorem zeroQueue_nodup (d : InDeg) (hnd : (keysI d).Nodup) : (zeroQueue d).Nodup := by
  have hsub : List.Sublist ((d.filter (fun p => p.2 = 0)).map Prod.fst) (d.map Prod.fst) :=
    (List.filter_sublist d).map Prod.fst
  exact hnd.sublist hsub

theorem mem_zeroQueue_of (d : InDeg) (v : String) (hv : v ∈ keysI d)
    (h0 : lookupD d v = 0) : v ∈ zeroQueue d := by
  have hmem := mem_keysI_lookupD d v hv
  rw [h0] at hmem
  exact List.mem_map.mpr ⟨(v, 0), List.mem_filter.mpr ⟨hmem, by simp⟩, rfl⟩

theorem zeroQueue_mem (d : InDeg) (v : String) (hnd : (keysI d).Nodup)
    (h : v ∈ zeroQueue d) : v ∈ keysI d ∧ lookupD d v = 0 := by
  obtain ⟨p, hp, hfst⟩ := List.mem_map.mp h
  obtain ⟨hpd, hz⟩ := List.mem_filter.mp hp
  have h2 : p.2 = 0 := by simpa using hz
  constructor
  · exact List.mem_map.mpr ⟨p, hpd, hfst⟩
  · have hpair : (p.1, p.2) ∈ d := by simpa using hpd
    have := lookupD_of_mem_nodup d p.1 p.2 hnd hpair
    rw [← hfst, this, h2]

/-! ### Characterisation of the built graph and in-degree dictionary -/

theorem lookupList_cons (k' : String) (l : List String) (rest : Graph) (k : String) :
    lookupList ((k', l) :: rest) k = if k' = k then l else lookupList rest k := by
  by_cases h : k' = k <;> simp [lookupList, List.find?_cons, h]

theorem lookupList_nil (k : String) : lookupList [] k = [] := rfl

theorem appendTo_lookup (g : Graph) (k item u : String) :
    lookupList (appendTo g k item) u =
      lookupList g u ++ (if u = k then [item] else []) := by
  induction g with
  | nil =>
    show lookupList [(k, [item])] u = lookupList [] u ++ (if u = k then [item] else [])
    rw [lookupList_cons, lookupList_nil, List.nil_append]
    by_cases h : u = k
    · rw [if_pos h.symm, if_pos h]
    · rw [if_neg (fun hh : k = u => h hh.symm), if_neg h]
  | cons p rest ih =>
    obtain ⟨k', l⟩ := p
    by_cases hk : k' = k
    · subst hk
      have ha : appendTo ((k', l) :: rest) k' item = (k', l ++ [item]) :: rest := by
        simp [appendTo]
      rw [ha]
      by_cases hu : k' = u
      · rw [lookupList_cons, if_pos hu, lookupList_cons, if_pos hu, if_pos hu.symm]
      · rw [lookupList_cons, if_neg hu, lookupList_cons, if_neg hu,
          if_neg (fun hh : u = k' => hu hh.symm), List.append_nil]
    · have ha : appendTo ((k', l) :: rest) k item = (k', l) :: appendTo rest k item := by
        simp [appendTo, hk]
      rw [ha]
      by_cases hu : k' = u
      · have hnk : ¬ u = k := fun hh => hk (by rw [hu, hh])
        rw [lookupList_cons, if_pos hu, lookupList_cons, if_pos hu, if_neg hnk,
          List.append_nil]
      · rw [lookupList_cons, if_neg hu, lookupList_cons, if_neg hu, ih]

theorem bump_lookup (d : InDeg) (k v : String) :
    lookupD (bump d k) v = lookupD d v + (if v = k then 1 else 0) := by
  induction d with
  | nil =>
    by_cases h : v = k
    · subst h; simp [bump, lookupD_cons, lookupD_nil]
    · simp [bump, lookupD_cons, lookupD_nil, Ne.symm h, h]
  | cons p rest ih =>
    obtain ⟨k', n⟩ := p
    by_cases hk : k' = k
    · subst hk
      by_cases hv : k' = v
      · subst hv
        simp [bump, lookupD_cons]
      · have hvk : ¬ v = k' := fun hh => hv hh.symm
        simp [bump, lookupD_cons, hv, hvk]
    · simp only [bump, if_neg hk]
      by_cases hv : k' = v
      · subst hv
        have hvk : ¬ k' = k := hk
        rw [lookupD_cons, if_pos rfl, lookupD_cons, if_pos rfl, if_neg hvk]
        omega
      · rw [lookupD_cons, if_neg hv, lookupD_cons, if_neg hv, ih]

theorem ensure_lookup (d : InDeg) (k v : String) :
    lookupD (ensure d k) v = lookupD d v := by
  induction d with
  | nil =>
    by_cases h : k = v <;> simp [ensure, lookupD_cons, lookupD_nil, h]
  | cons p rest ih =>
    obtain ⟨k', n⟩ := p
    by_cases hk : k' = k
    · simp [ensure, hk]
    · simp only [ensure, if_neg hk]
      rw [lookupD_cons, lookupD_cons, ih]

theorem bump_keys_mem (d : InDeg) (k : String) (h : k ∈ keysI d) :
    keysI (bump d k) = keysI d := by
  induction d with
  | nil => simp [keysI] at h
  | cons p rest ih =>
    obtain ⟨k', n⟩ := p
    by_cases hk : k' = k
    · simp [bump, hk, keysI]
    · have hmem : k ∈ keysI rest := by
        rw [keysI_cons] at h
        rcases List.mem_cons.mp h with h1 | h1
        · exact absurd h1.symm hk
        · exact h1
      have hb : bump ((k', n) :: rest) k = (k', n) :: bump rest k := by
        simp [bump, hk]
      rw [hb, keysI_cons, keysI_cons, ih hmem]

theorem bump_keys_notmem (d : InDeg) (k : String) (h : k ∉ keysI d) :
    keysI (bump d k) = keysI d ++ [k] := by
  induction d with
  | nil => simp [bump, keysI]
  | cons p rest ih =>
    obtain ⟨k', n⟩ := p
    have hk : ¬ k' = k := by
      intro hh
      exact h (by simp [keysI, hh])
    have hmem : k ∉ keysI rest := fun hh => h (by rw [keysI_cons]; exact List.mem_cons_of_mem _ hh)
    have hb : bump ((k', n) :: rest) k = (k', n) :: bump rest k := by
      simp [bump, hk]
    rw [hb, keysI_cons, keysI_cons, ih hmem]
    rfl

theorem ensure_keys_mem (d : InDeg) (k : String) (h : k ∈ keysI d) :
    keysI (ensure d k) = keysI d := by
  induction d with
  | nil => simp [keysI] at h
  | cons p rest ih =>
    obtain ⟨k', n⟩ := p
    by_cases hk : k' = k
    · simp [ensure, hk, keysI]
    · have hmem : k ∈ keysI rest := by
        rw [keysI_cons] at h
        rcases List.mem_cons.mp h with h1 | h1
        · exact absurd h1.symm hk
        · exact h1
      have hb : ensure ((k', n) :: rest) k = (k', n) :: ensure rest k := by
        simp [ensure, hk]
      rw [hb, keysI_cons, keysI_cons, ih hmem]

theorem ensure_keys_notmem (d : InDeg) (k : String) (h : k ∉ keysI d) :
    keysI (ensure d k) = keysI d ++ [k] := by
  induction d with
  | nil => simp [ensure, keysI]
  | cons p rest ih =>
    obtain ⟨k', n⟩ := p
    have hk : ¬ k' = k := by
      intro hh
      exact h (by simp [keysI, hh])
    have hmem : k ∉ keysI rest := fun hh => h (by rw [keysI_cons]; exact List.mem_cons_of_mem _ hh)
    have hb : ensure ((k', n) :: rest) k = (k', n) :: ensure rest k := by
      simp [ensure, hk]
    rw [hb, keysI_cons, keysI_cons, ih hmem]
    rfl

/-! ### The built graph and in-degree dictionary, characterised -/

def namesOf (ps : List (String × List String)) : List String := ps.map Prod.fst

theorem namesOf_cons (p : String × List String) (qs : List (String × List String)) :
    namesOf (p :: qs) = p.1 :: namesOf qs := rfl

theorem mem_namesOf {ps : List (String × List String)} {p : String × List String}
    (hp : p ∈ ps) : p.1 ∈ namesOf ps := List.mem_map.mpr ⟨p, hp, rfl⟩

theorem not_mem_namesOf_cons {p : String × List String} {qs : List (String × List String)}
    {v : String} (h : v ∉ namesOf (p :: qs)) : ¬ p.1 = v ∧ v ∉ namesOf qs := by
  rw [namesOf_cons] at h
  exact ⟨fun hh => h (hh ▸ List.mem_cons_self _ _), fun hh => h (List.mem_cons_of_mem _ hh)⟩

theorem nodup_namesOf_cons {p : String × List String} {qs : List (String × List String)}
    (h : (namesOf (p :: qs)).Nodup) : p.1 ∉ namesOf qs ∧ (namesOf qs).Nodup := by
  rw [namesOf_cons] at h
  exact List.nodup_cons.mp h

theorem refsOf_cons (m : String) (refs : List String) (rest : List (String × List String))
    (v : String) : refsOf ((m, refs) :: rest) v = if m = v then refs else refsOf rest v := by
  by_cases h : m = v <;> simp [refsOf, List.find?_cons, h]

theorem refsOf_nil (v : String) : refsOf [] v = [] := rfl

theorem refsOf_not_mem (ps : List (String × List String)) (v : String)
    (h : v ∉ namesOf ps) : refsOf ps v = [] := by
  induction ps with
  | nil => rfl
  | cons p rest ih =>
    obtain ⟨m, refs⟩ := p
    have hm : ¬ m = v := (not_mem_namesOf_cons h).1
    rw [refsOf_cons, if_neg hm]
    exact ih (not_mem_namesOf_cons h).2

theorem addItem_fst (g : Graph) (d : InDeg) (item : String) (refs : List String) :
    (addItem (g, d) (item, refs)).1 = (addRefsLoop (g, d) item refs).1 := rfl

theorem addItem_snd (g : Graph) (d : InDeg) (item : String) (refs : List String) :
    (addItem (g, d) (item, refs)).2 = ensure (addRefsLoop (g, d) item refs).2 item := rfl

theorem addRefsLoop_fst_lookup (refs : List String) (g : Graph) (d : InDeg)
    (item u : String) :
    lookupList (addRefsLoop (g, d) item refs).1 u =
      lookupList g u ++ List.replicate (refs.count u) item := by
  induction refs generalizing g d with
  | nil => simp [addRefsLoop]
  | cons r rs ih =>
    show lookupList (addRefsLoop (appendTo g r item, bump d item) item rs).1 u = _
    rw [ih, appendTo_lookup]
    by_cases hu : u = r
    · subst hu
      rw [if_pos rfl, List.count_cons_self, List.replicate_succ]
      simp [List.append_assoc]
    · rw [if_neg hu, List.count_cons_of_ne hu, List.append_nil]

theorem addRefsLoop_snd_lookup (refs : List String) (g : Graph) (d : InDeg)
    (item v : String) :
    lookupD (addRefsLoop (g, d) item refs).2 v =
      lookupD d v + (if v = item then (refs.length : Int) else 0) := by
  induction refs generalizing g d with
  | nil => simp [addRefsLoop]
  | cons r rs ih =>
    show lookupD (addRefsLoop (appendTo g r item, bump d item) item rs).2 v = _
    rw [ih, bump_lookup]
    by_cases hv : v = item
    · rw [if_pos hv, if_pos hv, if_pos hv]
      simp only [List.length_cons]
      push_cast
      omega
    · rw [if_neg hv, if_neg hv, if_neg hv]
      omega

theorem addRefsLoop_snd_keys_mem (refs : List String) (g : Graph) (d : InDeg)
    (item : String) (h : item ∈ keysI d) :
    keysI (addRefsLoop (g, d) item refs).2 = keysI d := by
  induction refs generalizing g d with
  | nil => rfl
  | cons r rs ih =>
    show keysI (addRefsLoop (appendTo g r item, bump d item) item rs).2 = _
    rw [ih (appendTo g r item) (bump d item) (by rw [bump_keys_mem d item h]; exact h),
      bump_keys_mem d item h]

theorem addRefsLoop_snd_keys_notmem (refs : List String) (g : Graph) (d : InDeg)
    (item : String) (h : item ∉ keysI d) (hne : refs ≠ []) :
    keysI (addRefsLoop (g, d) item refs).2 = keysI d ++ [item] := by
  match refs with
  | r :: rs =>
    show keysI (addRefsLoop (appendTo g r item, bump d item) item rs).2 = _
    have hb := bump_keys_notmem d item h
    have hmem : item ∈ keysI (bump d item) := by
      rw [hb]; exact List.mem_append_right _ (List.mem_singleton.mpr rfl)
    rw [addRefsLoop_snd_keys_mem rs _ _ item hmem, hb]

theorem addItem_lookupD (g : Graph) (d : InDeg) (item : String) (refs : List String)
    (v : String) :
    lookupD (addItem (g, d) (item, refs)).2 v =
      lookupD d v + (if v = item then (refs.length : Int) else 0) := by
  rw [addItem_snd, ensure_lookup, addRefsLoop_snd_lookup]

theorem addItem_keys_notmem (g : Graph) (d : InDeg) (item : String) (refs : List String)
    (h : item ∉ keysI d) :
    keysI (addItem (g, d) (item, refs)).2 = keysI d ++ [item] := by
  rw [addItem_snd]
  match refs with
  | [] =>
    show keysI (ensure d item) = _
    exact ensure_keys_notmem d item h
  | r :: rs =>
    have hk := addRefsLoop_snd_keys_notmem (r :: rs) g d item h (by simp)
    have hmem : item ∈ keysI (addRefsLoop (g, d) item (r :: rs)).2 := by
      rw [hk]; exact List.mem_append_right _ (List.mem_singleton.mpr rfl)
    rw [ensure_keys_mem _ _ hmem, hk]

/-- Integer contribution of the processed items to a node's in-degree. -/
def refContrib : List (String × List String) → String → Int
  | [], _ => 0
  | (m, refs) :: rest, v => (if m = v then (refs.length : Int) else 0) + refContrib rest v

theorem foldl_addItem_lookupD (ps : List (String × List String)) (g : Graph) (d : InDeg)
    (v : String) :
    lookupD (ps.foldl addItem (g, d)).2 v = lookupD d v + refContrib ps v := by
  induction ps generalizing g d with
  | nil => simp [refContrib]
  | cons p qs ih =>
    obtain ⟨item, refs⟩ := p
    rw [List.foldl_cons]
    have h1 := ih (addItem (g, d) (item, refs)).1 (addItem (g, d) (item, refs)).2
    rw [Prod.mk.eta] at h1
    rw [h1, addItem_lookupD, refContrib]
    by_cases hv : v = item
    · rw [if_pos hv, if_pos hv.symm]
      omega
    · rw [if_neg hv, if_neg (fun hh : item = v => hv hh.symm)]
      omega

theorem foldl_addItem_lookupList (ps : List (String × List String)) (g : Graph) (d : InDeg)
    (u : String) :
    lookupList (ps.foldl addItem (g, d)).1 u =
      lookupList g u ++ ps.flatMap (fun p => List.replicate (p.2.count u) p.1) := by
  induction ps generalizing g d with
  | nil => simp
  | cons p qs ih =>
    obtain ⟨item, refs⟩ := p
    rw [List.foldl_cons]
    have h1 := ih (addItem (g, d) (item, refs)).1 (addItem (g, d) (item, refs)).2
    rw [Prod.mk.eta] at h1
    rw [h1, addItem_fst, addRefsLoop_fst_lookup, List.flatMap_cons, List.append_assoc]

theorem foldl_addItem_keys (ps : List (String × List String)) (g : Graph) (d : InDeg)
    (hfresh : ∀ p ∈ ps, p.1 ∉ keysI d) (hnd : (namesOf ps).Nodup) :
    keysI (ps.foldl addItem (g, d)).2 = keysI d ++ namesOf ps := by
  induction ps generalizing g d with
  | nil => simp [namesOf]
  | cons p qs ih =>
    obtain ⟨item, refs⟩ := p
    rw [List.foldl_cons]
    have hkeys := addItem_keys_notmem g d item refs (hfresh (item, refs) (List.mem_cons_self _ _))
    have hnd' : (namesOf qs).Nodup := (nodup_namesOf_cons hnd).2
    have hhead : item ∉ namesOf qs := (nodup_namesOf_cons hnd).1
    have hfresh' : ∀ q ∈ qs, q.1 ∉ keysI (addItem (g, d) (item, refs)).2 := by
      intro q hq
      rw [hkeys]
      intro hmem
      rcases List.mem_append.mp hmem with h1 | h1
      · exact hfresh q (List.mem_cons_of_mem _ hq) h1
      · rw [List.mem_singleton] at h1
        exact hhead (h1 ▸ mem_namesOf hq)
    have h1 := ih (addItem (g, d) (item, refs)).1 (addItem (g, d) (item, refs)).2 hfresh' hnd'
    rw [Prod.mk.eta] at h1
    rw [h1, hkeys, namesOf_cons, List.append_assoc]
    rfl

theorem refContrib_not_mem (ps : List (String × List String)) (v : String)
    (h : v ∉ namesOf ps) : refContrib ps v = 0 := by
  induction ps with
  | nil => rfl
  | cons p rest ih =>
    obtain ⟨m, refs⟩ := p
    have hm : ¬ m = v := (not_mem_namesOf_cons h).1
    rw [refContrib, if_neg hm, ih (not_mem_namesOf_cons h).2]
    omega

theorem refContrib_eq (ps : List (String × List String)) (v : String)
    (hnd : (namesOf ps).Nodup) : refContrib ps v = ((refsOf ps v).length : Int) := by
  induction ps with
  | nil => rfl
  | cons p qs ih =>
    obtain ⟨m, refs⟩ := p
    have hnd' : (namesOf qs).Nodup := (nodup_namesOf_cons hnd).2
    have hhead : m ∉ namesOf qs := (nodup_namesOf_cons hnd).1
    rw [refContrib, refsOf_cons]
    by_cases hm : m = v
    · subst hm
      rw [if_pos rfl, if_pos rfl, refContrib_not_mem qs m hhead]
      omega
    · rw [if_neg hm, if_neg hm, ih hnd']
      omega

theorem buildGD_lookupD (ps : List (String × List String)) (v : String)
    (hnd : (namesOf ps).Nodup) :
    lookupD (buildGD ps).2 v = ((refsOf ps v).length : Int) := by
  rw [buildGD, foldl_addItem_lookupD, lookupD_nil, refContrib_eq ps v hnd]
  omega

theorem buildGD_lookupList (ps : List (String × List String)) (u : String) :
    lookupList (buildGD ps).1 u =
      ps.flatMap (fun p => List.replicate (p.2.count u) p.1) := by
  rw [buildGD, foldl_addItem_lookupList, lookupList_nil, List.nil_append]

theorem buildGD_keys (ps : List (String × List String)) (hnd : (namesOf ps).Nodup) :
    keysI (buildGD ps).2 = namesOf ps := by
  rw [buildGD, foldl_addItem_keys ps [] [] (by simp [keysI]) hnd, keysI_nil, List.nil_append]

theorem flatMap_replicate_count_zero (ps : List (String × List String)) (u v : String)
    (h : v ∉ namesOf ps) :
    (ps.flatMap (fun p => List.replicate (p.2.count u) p.1)).count v = 0 := by
  induction ps with
  | nil => rfl
  | cons p qs ih =>
    have hm : ¬ (p.1 == v) = true := by
      simp only [beq_iff_eq]
      exact (not_mem_namesOf_cons h).1
    rw [List.flatMap_cons, List.count_append, List.count_replicate, if_neg hm,
      ih (not_mem_namesOf_cons h).2]

theorem graph_count (ps : List (String × List String)) (x v : String)
    (hnd : (namesOf ps).Nodup) :
    (lookupList (buildGD ps).1 x).count v = (refsOf ps v).count x := by
  rw [buildGD_lookupList]
  induction ps with
  | nil => rfl
  | cons p qs ih =>
    obtain ⟨m, refs⟩ := p
    have hnd' : (namesOf qs).Nodup := (nodup_namesOf_cons hnd).2
    have hhead : m ∉ namesOf qs := (nodup_namesOf_cons hnd).1
    rw [List.flatMap_cons, List.count_append, List.count_replicate, refsOf_cons]
    by_cases hm : m = v
    · subst hm
      rw [if_pos (by simp), if_pos rfl, flatMap_replicate_count_zero qs x m hhead]
      simp
    · rw [if_neg (by simpa using hm), if_neg hm, ih hnd']
      omega

theorem graph_mem (ps : List (String × List String)) (u w : String)
    (h : w ∈ lookupList (buildGD ps).1 u) : w ∈ namesOf ps := by
  rw [buildGD_lookupList] at h
  obtain ⟨p, hp, hw⟩ := List.mem_flatMap.mp h
  have := List.eq_of_mem_replicate hw
  exact this ▸ List.mem_map.mpr ⟨p, hp, rfl⟩


/-! ### The Kahn loop invariant -/

theorem countP_mem_nil (L : List String) :
    L.countP (fun r => decide (r ∈ ([] : List String))) = 0 := by
  induction L with
  | nil => rfl
  | cons a l ih => rw [List.countP_cons, ih]; simp

theorem countP_mem_append_singleton (L s : List String) (x : String) (hx : x ∉ s) :
    L.countP (fun r => decide (r ∈ s ++ [x])) =
      L.countP (fun r => decide (r ∈ s)) + L.count x := by
  induction L with
  | nil => rfl
  | cons a l ih =>
    rw [List.countP_cons, List.countP_cons, List.count_cons, ih]
    by_cases has : a ∈ s
    · have hax : ¬ (a == x) = true := by
        simp only [beq_iff_eq]
        intro hh
        exact hx (hh ▸ has)
      have h1 : decide (a ∈ s ++ [x]) = true := by
        simp [List.mem_append, has]
      have h2 : decide (a ∈ s) = true := by simpa using has
      rw [h1, h2, if_neg hax]
      simp
      omega
    · by_cases hax : a = x
      · have h1 : decide (a ∈ s ++ [x]) = true := by
          simp [List.mem_append, hax]
        have h2 : decide (a ∈ s) = false := by simpa using has
        have h3 : (a == x) = true := by simpa using hax
        rw [h1, h2, if_pos h3]
        simp
        omega
      · have h1 : decide (a ∈ s ++ [x]) = false := by
          simp [List.mem_append, has, hax]
        have h2 : decide (a ∈ s) = false := by simpa using has
        have h3 : ¬ (a == x) = true := by simpa using hax
        rw [h1, h2, if_neg h3]
        simp

theorem count_not_mem_zero (x : String) (L : List String) (h : x ∉ L) : L.count x = 0 :=
  List.count_eq_zero.mpr h

/-- Everything the Kahn loop of sort_datapipelines preserves, stated for a
loop state (queue q, in-degree dictionary d, emitted output s) over the
input item/reference lists ps. -/
structure KahnInv (ps : List (String × List String)) (q : List String) (d : InDeg)
    (s : List String) : Prop where
  keys_eq : keysI d = namesOf ps
  nodup : (s ++ q).Nodup
  mem_names : ∀ v ∈ s ++ q, v ∈ namesOf ps
  deg : ∀ v, lookupD d v =
    ((refsOf ps v).length : Int) - ((refsOf ps v).countP (fun r => decide (r ∈ s)) : Int)
  zero_done : ∀ v ∈ s ++ q, lookupD d v = 0
  refs_done : ∀ v ∈ s ++ q, ∀ u ∈ refsOf ps v, u ∈ s
  complete : ∀ v ∈ namesOf ps, lookupD d v = 0 → v ∈ s ++ q
  topo : ∀ v ∈ s, ∀ u ∈ refsOf ps v, s.indexOf u < s.indexOf v

theorem kahnInv_init (ps : List (String × List String)) (hnd : (namesOf ps).Nodup) :
    KahnInv ps (zeroQueue (buildGD ps).2) (buildGD ps).2 [] := by
  have hkeys : keysI (buildGD ps).2 = namesOf ps := buildGD_keys ps hnd
  have hknodup : (keysI (buildGD ps).2).Nodup := by rw [hkeys]; exact hnd
  refine ⟨hkeys, ?_, ?_, ?_, ?_, ?_, ?_, ?_⟩
  · simpa using zeroQueue_nodup _ hknodup
  · intro v hv
    simp only [List.nil_append] at hv
    have := (zeroQueue_mem _ v hknodup hv).1
    rw [hkeys] at this
    exact this
  · intro v
    rw [buildGD_lookupD ps v hnd, countP_mem_nil]
    omega
  · intro v hv
    simp only [List.nil_append] at hv
    exact (zeroQueue_mem _ v hknodup hv).2
  · intro v hv u hu
    simp only [List.nil_append] at hv
    have h0 := (zeroQueue_mem _ v hknodup hv).2
    rw [buildGD_lookupD ps v hnd] at h0
    have : refsOf ps v = [] := by
      have : (refsOf ps v).length = 0 := by omega
      exact List.length_eq_zero.mp this
    rw [this] at hu
    simp at hu
  · intro v hv h0
    simp only [List.nil_append]
    exact mem_zeroQueue_of _ v (by rw [hkeys]; exact hv) h0
  · intro v hv
    simp at hv

theorem kahnInv_step (ps : List (String × List String)) (hnd : (namesOf ps).Nodup)
    (x : String) (rest : List String) (d : InDeg) (s : List String)
    (inv : KahnInv ps (x :: rest) d s) :
    KahnInv ps (rest ++ (step d (lookupList (buildGD ps).1 x)).2)
      (step d (lookupList (buildGD ps).1 x)).1 (s ++ [x]) := by
  set nbrs := lookupList (buildGD ps).1 x with hnbrs
  set d' := (step d nbrs).1 with hd'
  set newQ := (step d nbrs).2 with hnewQ
  have hxq : x ∈ s ++ x :: rest := List.mem_append_right _ (List.mem_cons_self _ _)
  have hx_names : x ∈ namesOf ps := inv.mem_names x hxq
  have hmid : (x :: (s ++ rest)).Nodup := List.nodup_middle.mp inv.nodup
  have hx_not : x ∉ s ++ rest := (List.nodup_cons.mp hmid).1
  have hx_s : x ∉ s := fun hh => hx_not (List.mem_append_left _ hh)
  have hcount : ∀ v, nbrs.count v = (refsOf ps v).count x := fun v => graph_count ps x v hnd
  have hnbrs_names : ∀ w ∈ nbrs, w ∈ namesOf ps := fun w hw => graph_mem ps x w hw
  have hdeg' : ∀ v, lookupD d' v = lookupD d v - ((refsOf ps v).count x : Int) := by
    intro v
    rw [hd', step_lookup, hcount]
  have hdegNew : ∀ v, lookupD d' v =
      ((refsOf ps v).length : Int) -
        ((refsOf ps v).countP (fun r => decide (r ∈ s ++ [x])) : Int) := by
    intro v
    rw [hdeg' v, inv.deg v, countP_mem_append_singleton _ s x hx_s]
    push_cast
    omega
  have hold_zero : ∀ v ∈ s ++ x :: rest, lookupD d' v = 0 := by
    intro v hv
    have h0 := inv.zero_done v hv
    have hrefs := inv.refs_done v hv
    have hxnotref : x ∉ refsOf ps v := fun hh => hx_s (hrefs x hh)
    rw [hdeg' v, h0, count_not_mem_zero x _ hxnotref]
    simp
  have hnew_zero : ∀ w ∈ newQ, lookupD d' w = 0 := by
    intro w hw
    obtain ⟨h1, h2, h3⟩ := step_snd_mem nbrs d w hw
    rw [hcount w] at h2
    have hge : ((refsOf ps w).count x : Int) ≤ lookupD d w := by
      rw [inv.deg w]
      have hsplit := countP_mem_append_singleton (refsOf ps w) s x hx_s
      have hle : (refsOf ps w).countP (fun r => decide (r ∈ s ++ [x])) ≤ (refsOf ps w).length :=
        List.countP_le_length _
      omega
    have heq : lookupD d w = ((refsOf ps w).count x : Int) := le_antisymm h2 hge
    rw [hdeg' w, heq]
    omega
  have hnew_not_old : ∀ w ∈ newQ, w ∉ s ++ x :: rest := by
    intro w hw hmem
    have h0 := inv.zero_done w hmem
    have h1 := (step_snd_mem nbrs d w hw).1
    omega
  have hnew_names : ∀ w ∈ newQ, w ∈ namesOf ps :=
    fun w hw => hnbrs_names w (step_snd_mem nbrs d w hw).2.2
  have hmem_iff : ∀ v, (v ∈ s ++ [x] ++ (rest ++ newQ)) ↔ (v ∈ s ++ x :: rest ∨ v ∈ newQ) := by
    intro v
    simp only [List.mem_append, List.mem_cons, List.mem_singleton]
    tauto
  have hkeys : keysI d' = keysI d := by
    rw [hd']
    exact keysI_step nbrs d (fun n hn => by rw [inv.keys_eq]; exact hnbrs_names n hn)
  refine ⟨?_, ?_, ?_, hdegNew, ?_, ?_, ?_, ?_⟩
  · rw [hkeys, inv.keys_eq]
  · have hlist_eq : s ++ [x] ++ (rest ++ newQ) = (s ++ x :: rest) ++ newQ := by
      simp [List.append_assoc]
    rw [hlist_eq]
    exact List.nodup_append.mpr
      ⟨inv.nodup, step_snd_nodup nbrs d, fun a ha hb => hnew_not_old a hb ha⟩
  · intro v hv
    rcases (hmem_iff v).mp hv with h | h
    · exact inv.mem_names v h
    · exact hnew_names v h
  · intro v hv
    rcases (hmem_iff v).mp hv with h | h
    · exact hold_zero v h
    · exact hnew_zero v h
  · intro v hv u hu
    rcases (hmem_iff v).mp hv with h | h
    · exact List.mem_append_left _ (inv.refs_done v h u hu)
    · have h0 := hnew_zero v h
      rw [hdegNew v] at h0
      have hcp : (refsOf ps v).countP (fun r => decide (r ∈ s ++ [x])) = (refsOf ps v).length := by
        omega
      have := List.countP_eq_length.mp hcp u hu
      exact of_decide_eq_true this
  · intro v hv h0
    rw [hdeg' v] at h0
    by_cases hz : lookupD d v = 0
    · exact (hmem_iff v).mpr (Or.inl (inv.complete v hv hz))
    · have hcnt_pos : 0 < (refsOf ps v).count x := by
        rcases Nat.eq_zero_or_pos ((refsOf ps v).count x) with hc | hc
        · rw [hc] at h0
          simp at h0
          exact absurd h0 hz
        · exact hc
      have hveq : lookupD d v = ((nbrs.count v : Nat) : Int) := by
        rw [hcount v]
        omega
      have : v ∈ newQ := step_snd_complete nbrs d v hveq (by rw [hcount v]; exact hcnt_pos)
      exact (hmem_iff v).mpr (Or.inr this)
  · intro v hv u hu
    rcases List.mem_append.mp hv with h | h
    · have hus : u ∈ s := inv.refs_done v (List.mem_append_left _ h) u hu
      rw [List.indexOf_append_of_mem hus, List.indexOf_append_of_mem h]
      exact inv.topo v h u hu
    · have hvx : v = x := List.mem_singleton.mp h
      subst hvx
      have hus : u ∈ s := inv.refs_done v hxq u hu
      rw [List.indexOf_append_of_mem hus, List.indexOf_append_of_not_mem hx_s]
      have hlt : s.indexOf u < s.length := List.indexOf_lt_length.mpr hus
      have : List.indexOf v [v] = 0 := by simp
      omega


theorem kahnLoop_inv (ps : List (String × List String)) (hnd : (namesOf ps).Nodup) :
    ∀ (n : Nat) (q : List String) (d : InDeg) (s : List String),
      q.length + degSum d ≤ n → KahnInv ps q d s →
      KahnInv ps [] (kahnLoop (buildGD ps).1 q d s).2 (kahnLoop (buildGD ps).1 q d s).1 := by
  intro n
  induction n with
  | zero =>
    intro q d s hm inv
    have hq : q = [] := List.length_eq_zero.mp (by omega)
    subst hq
    simpa [kahnLoop] using inv
  | succ m ih =>
    intro q d s hm inv
    match q with
    | [] => simpa [kahnLoop] using inv
    | x :: rest =>
      have hstep := kahnInv_step ps hnd x rest d s inv
      have hbound := step_bound (lookupList (buildGD ps).1 x) d
      have hmeas : (rest ++ (step d (lookupList (buildGD ps).1 x)).2).length +
          degSum (step d (lookupList (buildGD ps).1 x)).1 ≤ m := by
        simp only [List.length_append]
        simp only [List.length_cons] at hm
        omega
      have hres := ih _ _ _ hmeas hstep
      simp only [kahnLoop]
      exact hres

theorem references_mem (ps : List (String × List String)) (u v : String)
    (h : references ps u v) : v ∈ namesOf ps := by
  by_contra hnm
  rw [references, refsOf_not_mem ps v hnm] at h
  simp at h

/-- Soundness of the Kahn part: an .ok result is a permutation of the item
names in which every item comes after each of its resolved references. -/
theorem sortByRefs_ok_spec (ps : List (String × List String)) (hnd : (namesOf ps).Nodup)
    (l : List String) (h : sortByRefs ps = .ok l) :
    List.Perm l (namesOf ps) ∧
      ∀ v ∈ namesOf ps, ∀ u ∈ refsOf ps v, u ∈ l ∧ l.indexOf u < l.indexOf v := by
  have hinit := kahnInv_init ps hnd
  have hinv := kahnLoop_inv ps hnd ((zeroQueue (buildGD ps).2).length + degSum (buildGD ps).2)
    (zeroQueue (buildGD ps).2) (buildGD ps).2 [] le_rfl hinit
  simp only [sortByRefs] at h
  set r := kahnLoop (buildGD ps).1 (zeroQueue (buildGD ps).2) (buildGD ps).2 [] with hr
  by_cases hlen : r.1.length = r.2.length
  case neg =>
    rw [if_neg hlen] at h
    exact absurd h (by simp)
  rw [if_pos hlen] at h
  have hl : r.1 = l := by injection h
  subst hl
  have hnodup : r.1.Nodup := by
    have := hinv.nodup
    simpa using this
  have hsubset : ∀ v ∈ r.1, v ∈ namesOf ps := by
    intro v hv
    exact hinv.mem_names v (by simpa using hv)
  have hlen2 : r.2.length = (namesOf ps).length := by
    have h1 : (keysI r.2).length = (namesOf ps).length := by rw [hinv.keys_eq]
    simpa [keysI] using h1
  have hsub : List.Subperm r.1 (namesOf ps) := List.subperm_of_subset hnodup hsubset
  have hperm : List.Perm r.1 (namesOf ps) := hsub.perm_of_length_le (by omega)
  refine ⟨hperm, ?_⟩
  intro v hv u hu
  have hvl : v ∈ r.1 := hperm.mem_iff.mpr hv
  have hul : u ∈ r.1 := hinv.refs_done v (by simpa using hvl) u hu
  exact ⟨hul, hinv.topo v hvl u hu⟩

theorem exists_rank_min (L : List String) (hL : L ≠ []) (rank : String → Nat) :
    ∃ a ∈ L, ∀ b ∈ L, rank a ≤ rank b := by
  induction L with
  | nil => exact absurd rfl hL
  | cons a l ih =>
    match l with
    | [] =>
      refine ⟨a, List.mem_cons_self _ _, ?_⟩
      intro b hb
      rw [List.mem_singleton.mp hb]
    | c :: t =>
      obtain ⟨m, hm, hmin⟩ := ih (by simp)
      by_cases hcmp : rank a ≤ rank m
      · refine ⟨a, List.mem_cons_self _ _, ?_⟩
        intro b hb
        rcases List.mem_cons.mp hb with hb | hb
        · rw [hb]
        · exact le_trans hcmp (hmin b hb)
      · refine ⟨m, List.mem_cons_of_mem _ hm, ?_⟩
        intro b hb
        rcases List.mem_cons.mp hb with hb | hb
        · rw [hb]; omega
        · exact hmin b hb

/-- Completeness of the Kahn part: whenever the resolved reference lists
stay inside the item set and admit a rank function (every item ranks above
each of its references, i.e. the reference graph is a DAG), the sort
succeeds. -/
theorem sortByRefs_dag_ok (ps : List (String × List String)) (hnd : (namesOf ps).Nodup)
    (hclosed : ∀ v ∈ namesOf ps, ∀ u ∈ refsOf ps v, u ∈ namesOf ps)
    (rank : String → Nat)
    (hrank : ∀ v ∈ namesOf ps, ∀ u ∈ refsOf ps v, rank u < rank v) :
    ∃ l, sortByRefs ps = .ok l := by
  have hinit := kahnInv_init ps hnd
  have hinv := kahnLoop_inv ps hnd ((zeroQueue (buildGD ps).2).length + degSum (buildGD ps).2)
    (zeroQueue (buildGD ps).2) (buildGD ps).2 [] le_rfl hinit
  set r := kahnLoop (buildGD ps).1 (zeroQueue (buildGD ps).2) (buildGD ps).2 [] with hr
  suffices hlen : r.1.length = r.2.length by
    refine ⟨r.1, ?_⟩
    simp only [sortByRefs]
    rw [if_pos hlen]
  have hnodup : r.1.Nodup := by
    have := hinv.nodup
    simpa using this
  have hsubset : ∀ v ∈ r.1, v ∈ namesOf ps := by
    intro v hv
    exact hinv.mem_names v (by simpa using hv)
  have hlen2 : r.2.length = (namesOf ps).length := by
    have h1 : (keysI r.2).length = (namesOf ps).length := by rw [hinv.keys_eq]
    simpa [keysI] using h1
  have hlen_le : r.1.length ≤ (namesOf ps).length :=
    (List.subperm_of_subset hnodup hsubset).length_le
  by_contra hne
  have hmiss : ∃ v ∈ namesOf ps, v ∉ r.1 := by
    by_contra hall
    push_neg at hall
    have hsp : List.Subperm (namesOf ps) r.1 := List.subperm_of_subset hnd hall
    have := hsp.length_le
    omega
  set R := (namesOf ps).filter (fun v => decide (v ∉ r.1)) with hR
  have hRne : R ≠ [] := by
    obtain ⟨v, hv1, hv2⟩ := hmiss
    intro hnil
    have hmemR : v ∈ R := List.mem_filter.mpr ⟨hv1, by simpa using hv2⟩
    rw [hnil] at hmemR
    simp at hmemR
  obtain ⟨v, hvR, hvmin⟩ := exists_rank_min R hRne rank
  have hv_names : v ∈ namesOf ps := (List.mem_filter.mp hvR).1
  have hv_not : v ∉ r.1 := by simpa using (List.mem_filter.mp hvR).2
  have hv_deg : lookupD r.2 v ≠ 0 := by
    intro h0
    have := hinv.complete v hv_names h0
    rw [List.append_nil] at this
    exact hv_not this
  have hdg := hinv.deg v
  have hex : ∃ u ∈ refsOf ps v, u ∉ r.1 := by
    by_contra hall
    push_neg at hall
    have hcp : (refsOf ps v).countP (fun u => decide (u ∈ r.1)) = (refsOf ps v).length :=
      List.countP_eq_length.mpr (fun a ha => by simpa using hall a ha)
    rw [hcp] at hdg
    omega
  obtain ⟨u, hu_ref, hu_not⟩ := hex
  have hu_names := hclosed v hv_names u hu_ref
  have hu_R : u ∈ R := List.mem_filter.mpr ⟨hu_names, by simpa using hu_not⟩
  have hmin := hvmin u hu_R
  have hlt := hrank v hv_names u hu_ref
  omega

/-- A cycle among the items forces the ValueError branch of
sort_datapipelines: the Kahn output misses the cycle and the cycle error is
raised instead of any ordering. -/
theorem sortByRefs_cycle_error (ps : List (String × List String)) (hnd : (namesOf ps).Nodup)
    (hcyc : ∃ v, Relation.TransGen (references ps) v v) :
    sortByRefs ps = .error cycleErrorMsg := by
  match hsort : sortByRefs ps with
  | .ok l =>
    exfalso
    obtain ⟨hperm, htopo⟩ := sortByRefs_ok_spec ps hnd l hsort
    have hmono : ∀ a b, Relation.TransGen (references ps) a b →
        l.indexOf a < l.indexOf b := by
      intro a b ht
      induction ht with
      | single h =>
        have hb_names := references_mem ps _ _ h
        exact (htopo _ hb_names _ h).2
      | tail hab hbc ih =>
        have hc_names := references_mem ps _ _ hbc
        exact lt_trans ih (htopo _ hc_names _ hbc).2
    obtain ⟨v, hv⟩ := hcyc
    exact lt_irrefl _ (hmono v v hv)
  | .error e =>
    simp only [sortByRefs] at hsort
    by_cases hlen : (kahnLoop (buildGD ps).1 (zeroQueue (buildGD ps).2) (buildGD ps).2 []).1.length =
        (kahnLoop (buildGD ps).1 (zeroQueue (buildGD ps).2) (buildGD ps).2 []).2.length
    · rw [if_pos hlen] at hsort
      exact absurd hsort (by simp)
    · rw [if_neg hlen] at hsort
      have he : e = cycleErrorMsg := by
        injection hsort with h1
        exact h1.symm
      rw [he]


/-! ### Unresolvable references are dropped silently -/

theorem findRefs_filterMap (repo : List (String × String)) :
    (∀ (j : Jsonish) (l : List String), findRefsJ repo j = .ok l →
        l = (extractIdsJ j).filterMap (convert_id_to_name repo)) ∧
    (∀ (a : List Jsonish) (l : List String), findRefsArr repo a = .ok l →
        l = (extractIdsArr a).filterMap (convert_id_to_name repo)) ∧
    (∀ (whole a : List (String × Jsonish)) (l : List String),
        findRefsFields repo whole a = .ok l →
        l = (extractIdsFields whole a).filterMap (convert_id_to_name repo)) := by
  refine findRefsJ.mutual_induct repo
    (fun j => ∀ l, findRefsJ repo j = .ok l →
        l = (extractIdsJ j).filterMap (convert_id_to_name repo))
    (fun a => ∀ l, findRefsArr repo a = .ok l →
        l = (extractIdsArr a).filterMap (convert_id_to_name repo))
    (fun whole a => ∀ l, findRefsFields repo whole a = .ok l →
        l = (extractIdsFields whole a).filterMap (convert_id_to_name repo))
    ?_ ?_ ?_ ?_ ?_ ?_ ?_
  · intro fields h3 l hok
    simp only [findRefsJ] at hok
    simp only [extractIdsJ]
    exact h3 l hok
  · intro elems h2 l hok
    simp only [findRefsJ] at hok
    simp only [extractIdsJ]
    exact h2 l hok
  · intro t hnobj hnarr l hok
    cases t with
    | obj f => exact (hnobj f rfl).elim
    | arr a => exact (hnarr a rfl).elim
    | str sv =>
      simp only [findRefsJ, Except.ok.injEq] at hok
      subst hok
      simp [extractIdsJ]
    | num n =>
      simp only [findRefsJ, Except.ok.injEq] at hok
      subst hok
      simp [extractIdsJ]
    | bool b =>
      simp only [findRefsJ, Except.ok.injEq] at hok
      subst hok
      simp [extractIdsJ]
    | null =>
      simp only [findRefsJ, Except.ok.injEq] at hok
      subst hok
      simp [extractIdsJ]
  · intro whole l hok
    simp only [findRefsFields, Except.ok.injEq] at hok
    subst hok
    simp [extractIdsFields]
  · intro whole k v rest ihrest ihv l hok
    match hrid : refIdAt whole k v with
    | .error e =>
      rw [findRefsFields, hrid] at hok
      simp [Bind.bind, Except.bind] at hok
    | .ok rid =>
      match rid with
      | some r =>
        by_cases htr : jtruthy r
        · match hrest : findRefsFields repo whole rest with
          | .error e =>
            rw [findRefsFields, hrid] at hok
            simp [Bind.bind, Except.bind, Pure.pure, Except.pure, htr, hrest] at hok
          | .ok there =>
            rw [findRefsFields, hrid] at hok
            simp only [Bind.bind, Except.bind, Pure.pure, Except.pure, htr, if_true,
              hrest, Except.ok.injEq] at hok
            have hext : extractIdsFields whole ((k, v) :: rest) =
                [r] ++ extractIdsFields whole rest := by
              rw [extractIdsFields, hrid]
              simp [htr]
            have hsing : ([r].filterMap (convert_id_to_name repo)) =
                (convert_id_to_name repo r).toList := by
              cases hc : convert_id_to_name repo r <;> simp [List.filterMap, hc]
            subst hok
            rw [hext, List.filterMap_append, hsing, ← ihrest there hrest]
        · match hv : findRefsJ repo v with
          | .error e =>
            rw [findRefsFields, hrid] at hok
            simp [Bind.bind, Except.bind, Pure.pure, Except.pure, htr, hv] at hok
          | .ok lv =>
            match hrest : findRefsFields repo whole rest with
            | .error e =>
              rw [findRefsFields, hrid] at hok
              simp [Bind.bind, Except.bind, Pure.pure, Except.pure, htr, hv, hrest] at hok
            | .ok there =>
              rw [findRefsFields, hrid] at hok
              simp [Bind.bind, Except.bind, Pure.pure, Except.pure, htr, hv, hrest] at hok
              have hext : extractIdsFields whole ((k, v) :: rest) =
                  extractIdsJ v ++ extractIdsFields whole rest := by
                rw [extractIdsFields, hrid]
                simp [htr]
              subst hok
              rw [hext, List.filterMap_append, ← ihrest there hrest, ← ihv lv hv]
      | none =>
        match hv : findRefsJ repo v with
        | .error e =>
          rw [findRefsFields, hrid] at hok
          simp [Bind.bind, Except.bind, Pure.pure, Except.pure, hv] at hok
        | .ok lv =>
          match hrest : findRefsFields repo whole rest with
          | .error e =>
            rw [findRefsFields, hrid] at hok
            simp [Bind.bind, Except.bind, Pure.pure, Except.pure, hv, hrest] at hok
          | .ok there =>
            rw [findRefsFields, hrid] at hok
            simp [Bind.bind, Except.bind, Pure.pure, Except.pure, hv, hrest] at hok
            have hext : extractIdsFields whole ((k, v) :: rest) =
                extractIdsJ v ++ extractIdsFields whole rest := by
              rw [extractIdsFields, hrid]
              try simp
            subst hok
            rw [hext, List.filterMap_append, ← ihrest there hrest, ← ihv lv hv]
  · intro l hok
    simp only [findRefsArr, Except.ok.injEq] at hok
    subst hok
    simp [extractIdsArr]
  · intro j rest ihj ihrest l hok
    match hj : findRefsJ repo j with
    | .error e =>
      rw [findRefsArr, hj] at hok
      simp [Bind.bind, Except.bind] at hok
    | .ok lj =>
      match hrest : findRefsArr repo rest with
      | .error e =>
        rw [findRefsArr, hj] at hok
        simp [Bind.bind, Except.bind, Pure.pure, Except.pure, hrest] at hok
      | .ok there =>
        rw [findRefsArr, hj] at hok
        simp [Bind.bind, Except.bind, Pure.pure, Except.pure, hrest] at hok
        subst hok
        rw [extractIdsArr, List.filterMap_append, ← ihj lj hj, ← ihrest there hrest]


/-- Whether the deep scan succeeds does not depend on the lookup dictionary
at all: a reference id that fails to resolve never raises, it is skipped. -/
theorem findRefs_isOk_congr (repo1 repo2 : List (String × String)) :
    (∀ j : Jsonish, (findRefsJ repo1 j).isOk = (findRefsJ repo2 j).isOk) ∧
    (∀ a : List Jsonish, (findRefsArr repo1 a).isOk = (findRefsArr repo2 a).isOk) ∧
    (∀ whole a : List (String × Jsonish),
      (findRefsFields repo1 whole a).isOk = (findRefsFields repo2 whole a).isOk) := by
  refine findRefsJ.mutual_induct repo1
    (fun j => (findRefsJ repo1 j).isOk = (findRefsJ repo2 j).isOk)
    (fun a => (findRefsArr repo1 a).isOk = (findRefsArr repo2 a).isOk)
    (fun whole a => (findRefsFields repo1 whole a).isOk = (findRefsFields repo2 whole a).isOk)
    ?_ ?_ ?_ ?_ ?_ ?_ ?_
  · intro fields h3
    simp only [findRefsJ]
    exact h3
  · intro elems h2
    simp only [findRefsJ]
    exact h2
  · intro t hnobj hnarr
    cases t with
    | obj f => exact (hnobj f rfl).elim
    | arr a => exact (hnarr a rfl).elim
    | str sv => rfl
    | num n => rfl
    | bool b => rfl
    | null => rfl
  · intro whole
    rfl
  · intro whole k v rest ihrest ihv
    simp only [findRefsFields]
    match hrid : refIdAt whole k v with
    | .error e => simp [Bind.bind, Except.isOk, Except.toBool, Except.bind]
    | .ok rid =>
      match rid with
      | some r =>
        by_cases htr : jtruthy r
        · match h1 : findRefsFields repo1 whole rest, h2 : findRefsFields repo2 whole rest with
          | .error e1, .error e2 => simp [Bind.bind, Except.isOk, Except.toBool, Except.bind, Pure.pure, Except.pure, htr]
          | .error e1, .ok l2 =>
            rw [h1, h2] at ihrest
            simp [Except.isOk, Except.toBool] at ihrest
          | .ok l1, .error e2 =>
            rw [h1, h2] at ihrest
            simp [Except.isOk, Except.toBool] at ihrest
          | .ok l1, .ok l2 => simp [Bind.bind, Except.isOk, Except.toBool, Except.bind, Pure.pure, Except.pure, htr]
        · match hv1 : findRefsJ repo1 v, hv2 : findRefsJ repo2 v with
          | .error e1, .error e2 =>
            simp [Bind.bind, Except.isOk, Except.toBool, Except.bind, Pure.pure, Except.pure, htr, hv1, hv2]
          | .error e1, .ok l2 =>
            rw [hv1, hv2] at ihv
            simp [Except.isOk, Except.toBool] at ihv
          | .ok l1, .error e2 =>
            rw [hv1, hv2] at ihv
            simp [Except.isOk, Except.toBool] at ihv
          | .ok l1, .ok l2 =>
            match h1 : findRefsFields repo1 whole rest, h2 : findRefsFields repo2 whole rest with
            | .error e1, .error e2 =>
              simp [Bind.bind, Except.isOk, Except.toBool, Except.bind, Pure.pure, Except.pure, htr, hv1, hv2, h1, h2]
            | .error e1, .ok t2 =>
              rw [h1, h2] at ihrest
              simp [Except.isOk, Except.toBool] at ihrest
            | .ok t1, .error e2 =>
              rw [h1, h2] at ihrest
              simp [Except.isOk, Except.toBool] at ihrest
            | .ok t1, .ok t2 =>
              simp [Bind.bind, Except.isOk, Except.toBool, Except.bind, Pure.pure, Except.pure, htr, hv1, hv2, h1, h2]
      | none =>
        match hv1 : findRefsJ repo1 v, hv2 : findRefsJ repo2 v with
        | .error e1, .error e2 =>
          simp [Bind.bind, Except.isOk, Except.toBool, Except.bind, Pure.pure, Except.pure, hv1, hv2]
        | .error e1, .ok l2 =>
          rw [hv1, hv2] at ihv
          simp [Except.isOk, Except.toBool] at ihv
        | .ok l1, .error e2 =>
          rw [hv1, hv2] at ihv
          simp [Except.isOk, Except.toBool] at ihv
        | .ok l1, .ok l2 =>
          match h1 : findRefsFields repo1 whole rest, h2 : findRefsFields repo2 whole rest with
          | .error e1, .error e2 =>
            simp [Bind.bind, Except.isOk, Except.toBool, Except.bind, Pure.pure, Except.pure, hv1, hv2, h1, h2]
          | .error e1, .ok t2 =>
            rw [h1, h2] at ihrest
            simp [Except.isOk, Except.toBool] at ihrest
          | .ok t1, .error e2 =>
            rw [h1, h2] at ihrest
            simp [Except.isOk, Except.toBool] at ihrest
          | .ok t1, .ok t2 =>
            simp [Bind.bind, Except.isOk, Except.toBool, Except.bind, Pure.pure, Except.pure, hv1, hv2, h1, h2]
  · rfl
  · intro j rest ihj ihrest
    simp only [findRefsArr]
    match hv1 : findRefsJ repo1 j, hv2 : findRefsJ repo2 j with
    | .error e1, .error e2 => simp [Bind.bind, Except.isOk, Except.toBool, Except.bind, Pure.pure, Except.pure]
    | .error e1, .ok l2 =>
      rw [hv1, hv2] at ihj
      simp [Except.isOk, Except.toBool] at ihj
    | .ok l1, .error e2 =>
      rw [hv1, hv2] at ihj
      simp [Except.isOk, Except.toBool] at ihj
    | .ok l1, .ok l2 =>
      match h1 : findRefsArr repo1 rest, h2 : findRefsArr repo2 rest with
      | .error e1, .error e2 => simp [Bind.bind, Except.isOk, Except.toBool, Except.bind, Pure.pure, Except.pure]
      | .error e1, .ok t2 =>
        rw [h1, h2] at ihrest
        simp [Except.isOk, Except.toBool] at ihrest
      | .ok t1, .error e2 =>
        rw [h1, h2] at ihrest
        simp [Except.isOk, Except.toBool] at ihrest
      | .ok t1, .ok t2 => simp [Bind.bind, Except.isOk, Except.toBool, Except.bind, Pure.pure, Except.pure, h1, h2]


/-! ### Claim-level theorems for the dependency ordering -/

theorem resolveRefs_names (repo : List (String × String)) :
    ∀ (pipelines : List (String × Jsonish)) (rl : List (String × List String)),
      resolveRefs repo pipelines = .ok rl → rl.map Prod.fst = pipelines.map Prod.fst := by
  intro pipelines
  induction pipelines with
  | nil =>
    intro rl h
    simp only [resolveRefs, Except.ok.injEq] at h
    subst h
    rfl
  | cons p rest ih =>
    intro rl h
    obtain ⟨name, content⟩ := p
    match hfind : find_referenced_datapipelines repo content with
    | .error e =>
      rw [resolveRefs, hfind] at h
      simp [Bind.bind, Except.bind] at h
    | .ok refs =>
      match hrest : resolveRefs repo rest with
      | .error e =>
        rw [resolveRefs, hfind] at h
        simp [Bind.bind, Except.bind, Pure.pure, Except.pure, hrest] at h
      | .ok thereafter =>
        rw [resolveRefs, hfind] at h
        simp only [Bind.bind, Except.bind, Pure.pure, Except.pure, hrest,
          Except.ok.injEq] at h
        subst h
        simp only [List.map_cons]
        rw [ih thereafter hrest]

theorem sort_datapipelines_eq (repo : List (String × String))
    (pipelines : List (String × Jsonish)) (rl : List (String × List String))
    (hres : resolveRefs repo pipelines = .ok rl) :
    sort_datapipelines repo pipelines = sortByRefs rl := by
  simp [sort_datapipelines, hres]

theorem sortByRefs_ok_topo_trans (ps : List (String × List String))
    (hnd : (namesOf ps).Nodup) (l : List String) (h : sortByRefs ps = .ok l) :
    ∀ a b, Relation.TransGen (references ps) a b → l.indexOf a < l.indexOf b := by
  obtain ⟨hperm, htopo⟩ := sortByRefs_ok_spec ps hnd l h
  intro a b ht
  induction ht with
  | single hab =>
    have hb_names := references_mem ps _ _ hab
    exact (htopo _ hb_names _ hab).2
  | tail hab hbc ih =>
    have hc_names := references_mem ps _ _ hbc
    exact lt_trans ih (htopo _ hc_names _ hbc).2

/-- C1: for every pipeline dependency graph containing a cycle,
sort_datapipelines raises the cycle ValueError (wrapped in the RuntimeError
of its except clause) instead of returning any ordering: whenever the Kahn
traversal emits fewer nodes than the in_degree node count, the error is
raised and no partial order reaches the caller. -/
theorem sort_datapipelines_cycle_error
    (repo : List (String × String)) (pipelines : List (String × Jsonish))
    (rl : List (String × List String))
    (hres : resolveRefs repo pipelines = .ok rl)
    (hnd : (namesOf rl).Nodup)
    (hcyc : ∃ v, Relation.TransGen (references rl) v v) :
    sort_datapipelines repo pipelines = .error cycleErrorMsg := by
  rw [sort_datapipelines_eq repo pipelines rl hres]
  exact sortByRefs_cycle_error rl hnd hcyc

def wBodyRef (lid : String) : Jsonish :=
  .obj [("properties", .obj [("activities", .arr [
    .obj [("name", .str "Invoke"), ("type", .str "ExecutePipeline"),
          ("typeProperties", .obj [("pipeline", .obj [("referenceName", .str lid)])])]])])]

def wBodyNone : Jsonish := .obj [("properties", .obj [("activities", .arr [])])]

def wRepo : List (String × String) := [("A", "lidA"), ("B", "lidB")]

theorem sort_datapipelines_cycle_error_witness :
    sort_datapipelines wRepo [("A", wBodyRef "lidB"), ("B", wBodyRef "lidA")] =
      .error cycleErrorMsg := by
  apply sort_datapipelines_cycle_error wRepo _ [("A", ["B"]), ("B", ["A"])]
  · simp [resolveRefs, find_referenced_datapipelines, findRefsJ, findRefsFields,
      findRefsArr, refIdAt, pyNorm, pyLower, pyStrip, wholeGet, pyGetD, pyGetOpt,
      jtruthy, convert_id_to_name, wBodyRef, wRepo, Bind.bind, Except.bind,
      Pure.pure, Except.pure]
  · decide
  · have h1 : references [("A", ["B"]), ("B", ["A"])] "A" "B" := by decide
    have h2 : references [("A", ["B"]), ("B", ["A"])] "B" "A" := by decide
    exact ⟨"A", Relation.TransGen.tail (Relation.TransGen.single h1) h2⟩

/-- C2: for every pipeline dependency graph that forms a DAG (witnessed by
a rank function; trivially satisfiable when there are no edges),
sort_datapipelines returns a permutation of the input pipeline names, equal
in length to the input set, in which every pipeline appears after every
pipeline it transitively references. -/
theorem sort_datapipelines_dag_topological
    (repo : List (String × String)) (pipelines : List (String × Jsonish))
    (rl : List (String × List String))
    (hres : resolveRefs repo pipelines = .ok rl)
    (hnd : (namesOf rl).Nodup)
    (hclosed : ∀ v ∈ namesOf rl, ∀ u ∈ refsOf rl v, u ∈ namesOf rl)
    (rank : String → Nat)
    (hrank : ∀ v ∈ namesOf rl, ∀ u ∈ refsOf rl v, rank u < rank v) :
    ∃ l, sort_datapipelines repo pipelines = .ok l ∧
      List.Perm l (pipelines.map Prod.fst) ∧
      l.length = pipelines.length ∧
      ∀ u v, Relation.TransGen (references rl) u v → l.indexOf u < l.indexOf v := by
  obtain ⟨l, hok⟩ := sortByRefs_dag_ok rl hnd hclosed rank hrank
  obtain ⟨hperm, _⟩ := sortByRefs_ok_spec rl hnd l hok
  have hnames : namesOf rl = pipelines.map Prod.fst := resolveRefs_names repo pipelines rl hres
  refine ⟨l, ?_, ?_, ?_, ?_⟩
  · rw [sort_datapipelines_eq repo pipelines rl hres]
    exact hok
  · rw [← hnames]
    exact hperm
  · have h1 := hperm.length_eq
    rw [hnames] at h1
    simpa using h1
  · exact sortByRefs_ok_topo_trans rl hnd l hok

theorem sort_datapipelines_dag_topological_witness :
    ∃ l, sort_datapipelines wRepo [("B", wBodyNone), ("A", wBodyRef "lidB")] = .ok l ∧
      List.Perm l (["B", "A"]) ∧
      l.length = 2 ∧
      ∀ u v, Relation.TransGen (references [("B", []), ("A", ["B"])]) u v →
        l.indexOf u < l.indexOf v := by
  have h := sort_datapipelines_dag_topological wRepo
    [("B", wBodyNone), ("A", wBodyRef "lidB")] [("B", []), ("A", ["B"])]
    (by simp [resolveRefs, find_referenced_datapipelines, findRefsJ, findRefsFields,
      findRefsArr, refIdAt, pyNorm, pyLower, pyStrip, wholeGet, pyGetD, pyGetOpt,
      jtruthy, convert_id_to_name, wBodyRef, wBodyNone, wRepo, Bind.bind, Except.bind,
      Pure.pure, Except.pure])
    (by decide)
    (by decide)
    (fun s => if s = "B" then 0 else 1)
    (by decide)
  simpa using h

/-- C10: during dependency-graph construction, a pipeline-invocation
reference whose identifier does not resolve to a known pipeline name is
silently dropped: the scan output is exactly the extracted reference ids
filtered through convert_id_to_name (unresolvable ids contribute nothing),
and whether the scan raises at all is independent of the lookup table. -/
theorem find_referenced_datapipelines_drops_unresolved
    (repo : List (String × String)) (body : Jsonish) :
    (∀ l, find_referenced_datapipelines repo body = .ok l →
        l = (extractIdsJ body).filterMap (convert_id_to_name repo)) ∧
    (∀ repo2, (find_referenced_datapipelines repo body).isOk =
      (find_referenced_datapipelines repo2 body).isOk) := by
  constructor
  · intro l h
    exact (findRefs_filterMap repo).1 body l h
  · intro repo2
    exact (findRefs_isOk_congr repo repo2).1 body

def wBody10 : Jsonish := .arr [wBodyRef "lidB", wBodyRef "lidZ"]

theorem find_referenced_datapipelines_drops_unresolved_witness :
    find_referenced_datapipelines wRepo wBody10 = .ok ["B"] ∧
      ["B"] = (extractIdsJ wBody10).filterMap (convert_id_to_name wRepo) := by
  have hval : find_referenced_datapipelines wRepo wBody10 = .ok ["B"] := by
    simp [find_referenced_datapipelines, findRefsJ, findRefsFields,
      findRefsArr, refIdAt, pyNorm, pyLower, pyStrip, wholeGet, pyGetD, pyGetOpt,
      jtruthy, convert_id_to_name, wBodyRef, wBody10, wRepo, Bind.bind, Except.bind,
      Pure.pure, Except.pure]
  exact ⟨hval,
    (find_referenced_datapipelines_drops_unresolved wRepo wBody10).1 ["B"] hval⟩


/-! ## replace_logical_ids (workspace_item_utilities.py lines 379-400)

Artifact bodies are strings; the Python str.replace / in operators are
modelled over the character list of the body.  The nested repository_items
dictionary (item type → item name → details) is flattened, in its
iteration order, into a list of items carrying their logical_id and their
deployed guid (empty when the item has no deployed counterpart yet, as
repository_items_list fills in "" for undeployed items). -/

structure RepoItem where
  logical_id : List Char
  guid : List Char

/-- Python s.replace(pat, rep) for a nonempty pattern: left-to-right,
non-overlapping. -/
def replaceAll (pat rep : List Char) : List Char → List Char
  | [] => []
  | c :: rest =>
    if _h : pat ≠ [] ∧ pat <+: (c :: rest) then
      rep ++ replaceAll pat rep ((c :: rest).drop pat.length)
    else
      c :: replaceAll pat rep rest
termination_by s => s.length
decreasing_by
  · have hp : 0 < pat.length := List.length_pos.mpr _h.1
    simp only [List.length_drop, List.length_cons]
    omega
  · simp only [List.length_cons]
    omega

/-- The item loop of replace_logical_ids: for each repository item, if its
logical_id is nonempty and occurs in the current body, raise the
not-yet-deployed ValueError when it has no guid, else replace every
occurrence of the logical_id by the guid. -/
def processItems : List RepoItem → List Char → Except String (List Char)
  | [], f => .ok f
  | it :: rest, f =>
    if it.logical_id ≠ [] ∧ it.logical_id <:+: f then
      if it.guid = [] then
        .error ("Item with logical ID " ++ String.mk it.logical_id ++ " is not yet deployed.")
      else processItems rest (replaceAll it.logical_id it.guid f)
    else processItems rest f

def zeroGuid : List Char := "00000000-0000-0000-0000-000000000000".toList

/-- replace_logical_ids: run the item loop, then replace the all-zero GUID
by the workspace id; any raised error is re-wrapped like the Python
except clause does. -/
def replace_logical_ids (items : List RepoItem) (f workspaceId : List Char) :
    Except String (List Char) :=
  match processItems items f with
  | .error e => .error ("Error during logical ID replacement: " ++ e)
  | .ok u => .ok (replaceAll zeroGuid workspaceId u)

theorem processItems_append (l₁ l₂ : List RepoItem) (f : List Char) :
    processItems (l₁ ++ l₂) f = (processItems l₁ f).bind (fun g => processItems l₂ g) := by
  induction l₁ generalizing f with
  | nil => simp [processItems, Except.bind]
  | cons it rest ih =>
    by_cases hocc : it.logical_id ≠ [] ∧ it.logical_id <:+: f
    · by_cases hg : it.guid = []
      · simp [processItems, hocc, hg, Except.bind]
      · simp [processItems, hocc, hg, Except.bind, ih]
    · simp [processItems, hocc, Except.bind, ih]

/-- C3: the pre-submission body rewrite.  If, when an item's turn comes
(the loop having produced body g so far), its logical_id occurs in g: an
item with no deployed guid makes the whole call fail with the
unresolved-reference error (never silently skipped), while an item with a
guid has every occurrence of its logical_id replaced at that point. -/
theorem replace_logical_ids_spec (pre : List RepoItem) (it : RepoItem)
    (post : List RepoItem) (f g w : List Char)
    (hpre : processItems pre f = .ok g)
    (hlid : it.logical_id ≠ [])
    (hocc : it.logical_id <:+: g) :
    (it.guid = [] → ∃ e, replace_logical_ids (pre ++ it :: post) f w = .error e) ∧
    (it.guid ≠ [] →
      processItems (pre ++ [it]) f = .ok (replaceAll it.logical_id it.guid g)) := by
  constructor
  · intro hg
    refine ⟨"Error during logical ID replacement: " ++
      ("Item with logical ID " ++ String.mk it.logical_id ++ " is not yet deployed."), ?_⟩
    have hstep : processItems (it :: post) g =
        .error ("Item with logical ID " ++ String.mk it.logical_id ++ " is not yet deployed.") := by
      simp [processItems, hlid, hocc, hg]
    have hall : processItems (pre ++ it :: post) f =
        .error ("Item with logical ID " ++ String.mk it.logical_id ++ " is not yet deployed.") := by
      rw [processItems_append, hpre]
      simpa [Except.bind] using hstep
    simp [replace_logical_ids, hall]
  · intro hg
    have hstep : processItems [it] g = .ok (replaceAll it.logical_id it.guid g) := by
      simp [processItems, hlid, hocc, hg]
    rw [processItems_append, hpre]
    simpa [Except.bind] using hstep

theorem replace_logical_ids_spec_witness :
    (∃ e, replace_logical_ids ([] ++ ⟨"L1".toList, []⟩ :: []) "xxL1yy".toList "W".toList =
      .error e) ∧
    processItems ([] ++ [(⟨"L1".toList, "G1".toList⟩ : RepoItem)]) "xxL1yy".toList =
      .ok (replaceAll "L1".toList "G1".toList "xxL1yy".toList) :=
  ⟨(replace_logical_ids_spec [] ⟨"L1".toList, []⟩ [] "xxL1yy".toList "xxL1yy".toList
      "W".toList rfl (by decide) (by decide)).1 rfl,
   (replace_logical_ids_spec [] ⟨"L1".toList, "G1".toList⟩ [] "xxL1yy".toList
      "xxL1yy".toList "W".toList rfl (by decide) (by decide)).2 (by decide)⟩


/-! ## create_item upsert dispatch (workspace_item_utilities.py lines 279-343)

existing_items is the dict built in deploy_artifacts, keyed by the string
displayName.type; Python dict comprehension semantics keep the last entry
on key collision, so the lookup takes the last matching pair.  The
InlineBase64 encoding of the payload parts is injective and elided. -/

structure ItemPart where
  path : String
  payload : String
deriving DecidableEq

inductive FabricItemCall where
  | updateDefinition (workspaceId itemId : String) (parts : List ItemPart)
  | createNew (workspaceId displayName itemType description : String) (parts : List ItemPart)
deriving DecidableEq

/-- Python dict lookup on a key/value pair list built by a comprehension:
the last pair with the key wins. -/
def pyDictLookup (pairs : List (String × String)) (k : String) : Option String :=
  ((pairs.filter (fun p => p.1 = k)).getLast?).map Prod.snd

/-- create_item: build the definition payload, then submit updateDefinition
against the existing item's id when displayName.type is a known key, else
submit a create call carrying displayName, type and the description
truncated to 256 characters.  No part of the decision looks at the
content. -/
def create_item (workspaceId itemName itemType contentPath rawContent platformContent
    platformDesc : String) (existing : List (String × String)) : FabricItemCall :=
  let itemKey := itemName ++ "." ++ itemType
  let parts : List ItemPart :=
    [⟨contentPath, rawContent⟩, ⟨contentPath ++ "/.platform", platformContent⟩]
  match pyDictLookup existing itemKey with
  | some itemId => .updateDefinition workspaceId itemId parts
  | none =>
    .createNew workspaceId itemName itemType (String.mk (platformDesc.toList.take 256)) parts

/-- The dispatch decision of a call: the targeted existing id for updates,
none for creates. -/
def callKind : FabricItemCall → Option String
  | .updateDefinition _ itemId _ => some itemId
  | .createNew _ _ _ _ _ => none

/-- C6: an artifact whose displayName.type key is deployed is submitted as
an unconditional updateDefinition against the existing remote id; an
artifact with an unknown key is submitted as a create; and the decision is
independent of the artifact content (no content diffing). -/
theorem create_item_upsert_dispatch (workspaceId itemName itemType contentPath rawContent
    platformContent platformDesc : String) (existing : List (String × String)) :
    (∀ itemId, pyDictLookup existing (itemName ++ "." ++ itemType) = some itemId →
      create_item workspaceId itemName itemType contentPath rawContent platformContent
          platformDesc existing =
        .updateDefinition workspaceId itemId
          [⟨contentPath, rawContent⟩, ⟨contentPath ++ "/.platform", platformContent⟩]) ∧
    (pyDictLookup existing (itemName ++ "." ++ itemType) = none →
      create_item workspaceId itemName itemType contentPath rawContent platformContent
          platformDesc existing =
        .createNew workspaceId itemName itemType (String.mk (platformDesc.toList.take 256))
          [⟨contentPath, rawContent⟩, ⟨contentPath ++ "/.platform", platformContent⟩]) ∧
    (∀ c₁ c₂ : String,
      callKind (create_item workspaceId itemName itemType contentPath c₁ platformContent
        platformDesc existing) =
      callKind (create_item workspaceId itemName itemType contentPath c₂ platformContent
        platformDesc existing)) := by
  refine ⟨?_, ?_, ?_⟩
  · intro itemId h
    simp [create_item, h]
  · intro h
    simp [create_item, h]
  · intro c₁ c₂
    cases h : pyDictLookup existing (itemName ++ "." ++ itemType) <;>
      simp [create_item, h, callKind]

theorem create_item_upsert_dispatch_witness :
    create_item "ws1" "N" "Notebook" "p/notebook-content.py" "body1" "plat" "desc"
        [("N.Notebook", "guid-1")] =
      .updateDefinition "ws1" "guid-1"
        [⟨"p/notebook-content.py", "body1"⟩, ⟨"p/notebook-content.py" ++ "/.platform", "plat"⟩] ∧
    create_item "ws1" "M" "Notebook" "p/notebook-content.py" "body1" "plat" "desc"
        [("N.Notebook", "guid-1")] =
      .createNew "ws1" "M" "Notebook" (String.mk ("desc".toList.take 256))
        [⟨"p/notebook-content.py", "body1"⟩, ⟨"p/notebook-content.py" ++ "/.platform", "plat"⟩] :=
  ⟨(create_item_upsert_dispatch "ws1" "N" "Notebook" "p/notebook-content.py" "body1" "plat"
      "desc" [("N.Notebook", "guid-1")]).1 "guid-1" (by decide),
   (create_item_upsert_dispatch "ws1" "M" "Notebook" "p/notebook-content.py" "body1" "plat"
      "desc" [("N.Notebook", "guid-1")]).2.1 (by decide)⟩

/-! ## deploy_artifacts sequencing (workspace_item_utilities.py lines 833-870)

deploy_artifacts runs, in order: deploy_lakehouse, deploy_eventhouse,
deploy_notebooks, deploy_pipelines (in sort_datapipelines order), then
deploy_custom_environment (the Spark runtime environment). -/

inductive DeployAction where
  | lakehouse (name : String)
  | eventhouse (name : String)
  | notebook (name : String)
  | pipeline (name : String)
  | sparkEnvironment
deriving DecidableEq

def deploy_artifacts_trace (lakehouses eventhouses notebooks pipelineOrder : List String) :
    List DeployAction :=
  lakehouses.map .lakehouse ++ eventhouses.map .eventhouse ++ notebooks.map .notebook ++
    pipelineOrder.map .pipeline ++ [.sparkEnvironment]

def isPipelineAct : DeployAction → Bool
  | .pipeline _ => true
  | _ => false

/-- Storage, database and compute artifacts: the non-pipeline artifact
kinds that deploy before the pipelines. -/
def isStoreComputeAct : DeployAction → Bool
  | .lakehouse _ => true
  | .eventhouse _ => true
  | .notebook _ => true
  | _ => false

/-- C7 counterexample: the Spark runtime environment, a non-pipeline
artifact, is deployed after the pipelines, so not every non-pipeline
artifact precedes every pipeline. -/
theorem deploy_artifacts_env_after_pipeline :
    deploy_artifacts_trace ["LH"] [] [] ["P"] =
      [.lakehouse "LH", .pipeline "P", .sparkEnvironment] ∧
    (deploy_artifacts_trace ["LH"] [] [] ["P"]).indexOf (.pipeline "P") <
      (deploy_artifacts_trace ["LH"] [] [] ["P"]).indexOf .sparkEnvironment := by
  constructor
  · rfl
  · decide

theorem block_order {α : Type} (P Q : α → Bool) (L A B : List α) (hL : L = A ++ B)
    (hA : ∀ a ∈ A, Q a = false) (hB : ∀ a ∈ B, P a = false)
    (i j : Nat) (hi : i < L.length) (hj : j < L.length)
    (hP : P (L.get ⟨i, hi⟩) = true) (hQ : Q (L.get ⟨j, hj⟩) = true) : i < j := by
  subst hL
  simp only [List.get_eq_getElem] at hP hQ
  have hjge : A.length ≤ j := by
    by_contra hlt
    push_neg at hlt
    rw [List.getElem_append_left hlt] at hQ
    have hmm := hA _ (List.getElem_mem hlt)
    rw [hQ] at hmm
    exact absurd hmm (by simp)
  by_contra hge
  push_neg at hge
  have hige : A.length ≤ i := le_trans hjge hge
  rw [List.getElem_append_right hige] at hP
  have hbnd : i - A.length < B.length := by
    simp only [List.length_append] at hi
    omega
  have hmm := hB _ (List.getElem_mem hbnd)
  rw [hP] at hmm
  exact absurd hmm (by simp)

/-- C7 (amended): every lakehouse, eventhouse and notebook deployment
precedes every pipeline deployment, and the Spark environment deployment
is the single last action, after all pipelines. -/
theorem deploy_artifacts_order (lhs ehs nbs pls : List String) :
    (∀ (i j : Nat) (hi : i < (deploy_artifacts_trace lhs ehs nbs pls).length)
        (hj : j < (deploy_artifacts_trace lhs ehs nbs pls).length),
      isStoreComputeAct ((deploy_artifacts_trace lhs ehs nbs pls).get ⟨i, hi⟩) = true →
      isPipelineAct ((deploy_artifacts_trace lhs ehs nbs pls).get ⟨j, hj⟩) = true →
      i < j) ∧
    (deploy_artifacts_trace lhs ehs nbs pls =
      (lhs.map DeployAction.lakehouse ++ ehs.map DeployAction.eventhouse ++
        nbs.map DeployAction.notebook ++ pls.map DeployAction.pipeline) ++
        [DeployAction.sparkEnvironment] ∧
      ∀ a ∈ lhs.map DeployAction.lakehouse ++ ehs.map DeployAction.eventhouse ++
          nbs.map DeployAction.notebook ++ pls.map DeployAction.pipeline,
        a ≠ DeployAction.sparkEnvironment) := by
  have htr : deploy_artifacts_trace lhs ehs nbs pls =
      (lhs.map DeployAction.lakehouse ++ ehs.map DeployAction.eventhouse ++
        nbs.map DeployAction.notebook) ++
      (pls.map DeployAction.pipeline ++ [DeployAction.sparkEnvironment]) := by
    simp [deploy_artifacts_trace, List.append_assoc]
  have hAfree : ∀ a ∈ lhs.map DeployAction.lakehouse ++ ehs.map DeployAction.eventhouse ++
      nbs.map DeployAction.notebook, isPipelineAct a = false := by
    intro a ha
    simp only [List.mem_append, List.mem_map] at ha
    rcases ha with (⟨n, hn, rfl⟩ | ⟨n, hn, rfl⟩) | ⟨n, hn, rfl⟩ <;> rfl
  have hBfree : ∀ a ∈ pls.map DeployAction.pipeline ++ [DeployAction.sparkEnvironment],
      isStoreComputeAct a = false := by
    intro a ha
    simp only [List.mem_append, List.mem_map, List.mem_singleton] at ha
    rcases ha with ⟨n, _, rfl⟩ | rfl <;> rfl
  refine ⟨?_, ?_, ?_⟩
  · intro i j hi hj hsc hp
    exact block_order isStoreComputeAct isPipelineAct _ _ _ htr hAfree hBfree i j hi hj hsc hp
  · simp [deploy_artifacts_trace, List.append_assoc]
  · intro a ha
    simp only [List.mem_append, List.mem_map] at ha
    rcases ha with ((⟨n, hn, rfl⟩ | ⟨n, hn, rfl⟩) | ⟨n, hn, rfl⟩) | ⟨n, hn, rfl⟩ <;> simp

/-! ## Deletion confirmation (deployment_main.py lines 32-67; compare the
workspace_utilities.py orchestrator's incremental branch, lines 586-596)

`poll_item_deletion_status` re-reads the workspace item list once per
`poll_interval = 30` second slot while the elapsed time is below
`timeout = 600` seconds, so the loop body runs `ceil(timeout / interval)`
times before the timeout is reached; each round drops from the
confirmation set every identifier no longer listed, returns once the set
is empty, and after the final round raises listing `items_to_confirm` —
the identifiers still present.  `listItems k` is the item listing the
workspace reports at poll number `k`; the error payload models the
identifier list embedded in the raised exception's message.  The
incremental branch of the deployment_main orchestrator (HEAD side) runs
this poll between `delete_old_items` and `deploy_artifacts`; the
workspace_utilities orchestrator instead sleeps a fixed 450 seconds and
then deploys with no confirmation poll at all. -/

def poll_go (listItems : Nat → List String) : Nat → Nat → List String →
    Except (List String) Unit
  | _, 0, itemsToConfirm => .error itemsToConfirm
  | k, fuel + 1, itemsToConfirm =>
    let remaining := itemsToConfirm.filter (fun i => (listItems k).contains i)
    if remaining.isEmpty then .ok ()
    else poll_go listItems (k + 1) fuel remaining

def poll_item_deletion_status (listItems : Nat → List String)
    (items_to_delete : List String) (timeout poll_interval : Nat) :
    Except (List String) Unit :=
  poll_go listItems 0 ((timeout + poll_interval - 1) / poll_interval) items_to_delete

inductive ReconcileAction where
  | listItems
  | deleteOldItems
  | pollDeletion
  | sleep (seconds : Nat)
  | deploy
deriving DecidableEq

/-- The incremental branch of the deployment_main orchestrator (HEAD side):
list the workspace, delete stale items, and when there were deletions run
the confirmation poll; a poll failure propagates and deployment is not
reached. -/
def dm_incremental_trace (pollResult : Except (List String) Unit)
    (hasDeletes : Bool) : Except (List String) (List ReconcileAction) :=
  if hasDeletes then
    match pollResult with
    | .ok _ => .ok [.listItems, .deleteOldItems, .pollDeletion, .deploy]
    | .error l => .error l
  else .ok [.listItems, .deleteOldItems, .deploy]

/-- The incremental branch of the workspace_utilities orchestrator: list,
delete, sleep a fixed 450 seconds, deploy — no confirmation poll. -/
def wu_incremental_trace : List ReconcileAction :=
  [.listItems, .deleteOldItems, .sleep 450, .deploy]

theorem poll_go_error_spec (listItems : Nat → List String) :
    ∀ fuel k items l, poll_go listItems k fuel items = .error l →
      (fuel = 0 ∧ l = items) ∨
      (l ≠ [] ∧ List.Sublist l items ∧
        ∃ k2, ∀ i ∈ l, (listItems k2).contains i = true) := by
  intro fuel
  induction fuel with
  | zero =>
    intro k items l h
    simp only [poll_go] at h
    exact Or.inl ⟨rfl, (Except.error.injEq _ _).mp h |>.symm⟩
  | succ n ih =>
    intro k items l h
    simp only [poll_go] at h
    by_cases hemp : (items.filter (fun i => (listItems k).contains i)).isEmpty
    · rw [if_pos hemp] at h
      exact absurd h (by simp)
    · rw [if_neg hemp] at h
      rcases ih _ _ _ h with ⟨_, rfl⟩ | ⟨hne, hsub, k2, hpres⟩
      · refine Or.inr ⟨?_, List.filter_sublist _, k, ?_⟩
        · intro hcon
          rw [hcon] at hemp
          exact hemp rfl
        · intro i hi
          exact (List.mem_filter.mp hi).2
      · exact Or.inr ⟨hne, hsub.trans (List.filter_sublist _), k2, hpres⟩

theorem poll_go_dropped_spec (listItems : Nat → List String) :
    ∀ fuel k items l, poll_go listItems k fuel items = .error l →
      ∀ i ∈ items, i ∉ l → ∃ k2, (listItems k2).contains i = false := by
  intro fuel
  induction fuel with
  | zero =>
    intro k items l h i hi hnl
    simp only [poll_go] at h
    exact absurd (((Except.error.injEq _ _).mp h) ▸ hi) hnl
  | succ n ih =>
    intro k items l h i hi hnl
    simp only [poll_go] at h
    by_cases hemp : (items.filter (fun i => (listItems k).contains i)).isEmpty
    · rw [if_pos hemp] at h
      exact absurd h (by simp)
    · rw [if_neg hemp] at h
      by_cases hpres : (listItems k).contains i = true
      · exact ih _ _ _ h i (List.mem_filter.mpr ⟨hi, hpres⟩) hnl
      · exact ⟨k, Bool.eq_false_iff.mpr hpres⟩

/-- C4 (amended): on the deployment_main side the reconciler confirms
deletions by polling the item list every 30 s under a 600 s timeout; when
the timeout elapses the run fails with an error payload that lists exactly
the identifiers never observed absent — every listed identifier comes from
the deletion set and was still present at the final poll, and every
deletion-set identifier not listed was observed absent at some poll — and
the orchestrator's deploy step is not reached, while a successful
confirmation is followed by the deploy step.  The workspace_utilities
orchestrator, however, performs no such poll: it sleeps a fixed 450
seconds and then deploys unconditionally (see the counterexample). -/
theorem poll_item_deletion_status_timeout_spec (listItems : Nat → List String)
    (items l : List String)
    (h : poll_item_deletion_status listItems items 600 30 = .error l) :
    l ≠ [] ∧ List.Sublist l items ∧
    (∃ k, ∀ i ∈ l, (listItems k).contains i = true) ∧
    (∀ i ∈ items, i ∉ l → ∃ k, (listItems k).contains i = false) ∧
    dm_incremental_trace (.error l) true = .error l ∧
    (∀ r : Except (List String) Unit,
      dm_incremental_trace r true =
        .ok [ReconcileAction.listItems, ReconcileAction.deleteOldItems,
          ReconcileAction.pollDeletion, ReconcileAction.deploy] →
      r = .ok ()) := by
  have h20 : poll_go listItems 0 20 items = .error l := h
  rcases poll_go_error_spec listItems 20 0 items l h20 with ⟨h0, _⟩ | ⟨hne, hsub, hk⟩
  · exact absurd h0 (by decide)
  refine ⟨hne, hsub, hk, poll_go_dropped_spec listItems 20 0 items l h20, rfl, ?_⟩
  intro r hr
  match r with
  | .ok _ => rfl
  | .error l2 => simp [dm_incremental_trace] at hr

/-- The listing oracle of the C4 witness: the workspace keeps listing the
single item X at every poll. -/
def c4Listing : Nat → List String := fun _ => ["X"]

/-- C4 witness: with one item whose identifier the workspace keeps listing,
the poll times out and reports that identifier, and the reported facts of
the amended theorem hold at this input. -/
theorem poll_item_deletion_status_timeout_spec_witness :
    poll_item_deletion_status c4Listing ["X"] 600 30 = .error ["X"] ∧
    (["X"] : List String) ≠ [] ∧
    List.Sublist ["X"] ["X"] ∧
    (∃ k, ∀ i ∈ (["X"] : List String), (c4Listing k).contains i = true) ∧
    (∀ i ∈ (["X"] : List String), i ∉ (["X"] : List String) →
      ∃ k, (c4Listing k).contains i = false) ∧
    dm_incremental_trace (.error ["X"]) true = .error ["X"] ∧
    (∀ r : Except (List String) Unit,
      dm_incremental_trace r true =
        .ok [ReconcileAction.listItems, ReconcileAction.deleteOldItems,
          ReconcileAction.pollDeletion, ReconcileAction.deploy] →
      r = .ok ()) :=
  ⟨by rfl,
    poll_item_deletion_status_timeout_spec c4Listing ["X"] ["X"] (by rfl)⟩

/-- C4 counterexample: the workspace_utilities orchestrator's incremental
branch contains no deletion-confirmation poll; it sleeps a fixed 450
seconds after deleting stale items and then deploys. -/
theorem wu_incremental_trace_no_poll :
    ReconcileAction.pollDeletion ∉ wu_incremental_trace ∧
    ReconcileAction.sleep 450 ∈ wu_incremental_trace ∧
    wu_incremental_trace.indexOf (ReconcileAction.sleep 450) <
      wu_incremental_trace.indexOf ReconcileAction.deploy := by
  refine ⟨by decide, by decide, by decide⟩

/-! ## Workspace creation with conflict fallback (deployment_main.py lines
70-99, 110-153 and 155-238)

`create_workspace_direct_api` returns the new id on HTTP 201, `None` on a
409 naming conflict, and raises on any other failure; this outcome is the
`CreateOutcome` input.  `get_workspace_by_name_with_retry` makes up to
`max_retries = 3` lookup attempts (exceptions caught, a 2 s sleep between
attempts) and returns the first found workspace, else `None`; `find k` is
attempt number `k`'s outcome.  On a conflict — either the 409 `None`
return or a raised error whose lowercased text contains one of the
conflict markers — `create_workspace_with_fallback` runs the retry
lookup, then falls back to scanning `list_all_workspaces` for a record
whose `displayName` or `name` equals the target (a scan failure,
including the `ws["id"]` KeyError, is caught), and raises its
could-not-retrieve error only when every path fails.  A non-conflict
creation error is re-raised as is. -/

def listIsPrefixOf : List Char → List Char → Bool
  | [], _ => true
  | _ :: _, [] => false
  | a :: as, b :: bs => a == b && listIsPrefixOf as bs

/-- Python's substring test `needle in hay`. -/
def pySubstr (needle : List Char) : List Char → Bool
  | [] => needle.isEmpty
  | c :: rest => listIsPrefixOf needle (c :: rest) || pySubstr needle rest

def pyIn (needle hay : String) : Bool := pySubstr needle.data hay.data

/-- The conflict markers create_workspace_with_fallback greps the
lowercased error text for. -/
def isConflictMsg (msg : String) : Bool :=
  let e := pyLower msg
  pyIn "workspace name already exists" e || pyIn "workspacenamealreadyexists" e ||
    pyIn "409" e || pyIn "conflict" e

structure WsRecord where
  displayName : Option String
  name : Option String
  id : Option String

/-- `ws.get("displayName") == workspace_name or ws.get("name") == workspace_name`. -/
def wsNameMatches (target : String) (ws : WsRecord) : Bool :=
  ws.displayName == some target || ws.name == some target

/-- The `for ws in all_workspaces` scan: the first matching record's
`ws["id"]`, a KeyError when that record has no id. -/
def findInListing (target : String) : List WsRecord → Except String (Option String)
  | [] => .ok none
  | ws :: rest =>
    if wsNameMatches target ws then
      match ws.id with
      | some i => .ok (some i)
      | none => .error "KeyError: id"
    else findInListing target rest

/-- The last-resort listing fallback; any failure of the scan is caught
and, like an unmatched scan, yields nothing. -/
def fallback_listing_lookup (target : String)
    (listAll : Except String (List WsRecord)) : Option String :=
  match listAll with
  | .error _ => none
  | .ok l =>
    match findInListing target l with
    | .ok r => r
    | .error _ => none

def get_ws_retry_go (find : Nat → Except String (Option String)) :
    Nat → Nat → Option String
  | _, 0 => none
  | attempt, rem + 1 =>
    match find attempt with
    | .ok (some details) => some details
    | _ => get_ws_retry_go find (attempt + 1) rem

def get_workspace_by_name_with_retry (find : Nat → Except String (Option String))
    (max_retries : Nat) : Option String :=
  get_ws_retry_go find 0 max_retries

def couldNotRetrieveMsg : String :=
  "Workspace exists but could not retrieve details. Please check permissions or try again later."

inductive CreateOutcome where
  | created (id : String)
  | conflict409
  | failed (msg : String)

/-- The shared conflict-resolution path: retry lookup, then listing
fallback, then the could-not-retrieve error. -/
def resolve_existing_workspace (find : Nat → Except String (Option String))
    (listAll : Except String (List WsRecord)) (target : String) :
    Except String String :=
  match get_workspace_by_name_with_retry find 3 with
  | some id => .ok id
  | none =>
    match fallback_listing_lookup target listAll with
    | some id => .ok id
    | none => .error couldNotRetrieveMsg

def create_workspace_with_fallback (create : CreateOutcome)
    (find : Nat → Except String (Option String))
    (listAll : Except String (List WsRecord)) (target : String) :
    Except String String :=
  match create with
  | .created id => .ok id
  | .conflict409 => resolve_existing_workspace find listAll target
  | .failed msg =>
    if isConflictMsg msg then resolve_existing_workspace find listAll target
    else .error msg

theorem get_ws_retry_go_first_found (find : Nat → Except String (Option String)) :
    ∀ rem attempt k id, k < rem → find (attempt + k) = .ok (some id) →
      (∀ j, j < k → ∀ i2, find (attempt + j) ≠ .ok (some i2)) →
      get_ws_retry_go find attempt rem = some id := by
  intro rem
  induction rem with
  | zero => intro attempt k id hk _ _; exact absurd hk (by omega)
  | succ n ih =>
    intro attempt k id hk hfound hbefore
    match k with
    | 0 =>
      simp only [Nat.add_zero] at hfound
      simp [get_ws_retry_go, hfound]
    | k2 + 1 =>
      have h0 : ∀ i2, find attempt ≠ .ok (some i2) := by
        intro i2
        have := hbefore 0 (Nat.succ_pos k2) i2
        simpa using this
      have hmain : get_ws_retry_go find (attempt + 1) n = some id := by
        refine ih (attempt + 1) k2 id (by omega) ?_ ?_
        · have ha : attempt + 1 + k2 = attempt + (k2 + 1) := by omega
          rw [ha]
          exact hfound
        · intro j hj i2
          have ha : attempt + 1 + j = attempt + (j + 1) := by omega
          rw [ha]
          exact hbefore (j + 1) (by omega) i2
      match hfa : find attempt with
      | .ok (some d) => exact absurd hfa (h0 d)
      | .ok none => simpa [get_ws_retry_go, hfa] using hmain
      | .error e => simpa [get_ws_retry_go, hfa] using hmain

theorem get_ws_retry_go_congr (find find2 : Nat → Except String (Option String)) :
    ∀ rem attempt, (∀ k, attempt ≤ k → k < attempt + rem → find k = find2 k) →
      get_ws_retry_go find attempt rem = get_ws_retry_go find2 attempt rem := by
  intro rem
  induction rem with
  | zero => intro attempt hag; rfl
  | succ n ih =>
    intro attempt hag
    have h0 : find attempt = find2 attempt := hag attempt (le_refl _) (by omega)
    simp only [get_ws_retry_go, h0]
    match find2 attempt with
    | .ok (some d) => rfl
    | .ok none => exact ih (attempt + 1) (fun k h1 h2 => hag k (by omega) (by omega))
    | .error e => exact ih (attempt + 1) (fun k h1 h2 => hag k (by omega) (by omega))

/-- C5: a naming conflict — the 409 return of the direct create call, or a
creation error whose text carries a conflict marker, both routes being
interchangeable — is resolved through the find-path: when the retry
lookup finds the workspace within its 3 attempts (and the retry consults
only attempts 0, 1 and 2) the existing id is returned without raising;
when it finds nothing but the all-workspaces listing fallback matches,
that id is returned; the could-not-retrieve error is raised only when
every path fails. -/
theorem create_workspace_with_fallback_conflict_resolution
    (find find2 : Nat → Except String (Option String))
    (listAll : Except String (List WsRecord)) (target msg : String)
    (hmsg : isConflictMsg msg = true) :
    (∀ id, get_workspace_by_name_with_retry find 3 = some id →
      create_workspace_with_fallback .conflict409 find listAll target = .ok id) ∧
    (∀ k id, k < 3 → find k = .ok (some id) →
      (∀ j, j < k → ∀ i2, find j ≠ .ok (some i2)) →
      get_workspace_by_name_with_retry find 3 = some id) ∧
    ((∀ k, k < 3 → find k = find2 k) →
      get_workspace_by_name_with_retry find 3 =
        get_workspace_by_name_with_retry find2 3) ∧
    (∀ id, get_workspace_by_name_with_retry find 3 = none →
      fallback_listing_lookup target listAll = some id →
      create_workspace_with_fallback .conflict409 find listAll target = .ok id) ∧
    (get_workspace_by_name_with_retry find 3 = none →
      fallback_listing_lookup target listAll = none →
      create_workspace_with_fallback .conflict409 find listAll target =
        .error couldNotRetrieveMsg) ∧
    create_workspace_with_fallback (.failed msg) find listAll target =
      create_workspace_with_fallback .conflict409 find listAll target := by
  refine ⟨?_, ?_, ?_, ?_, ?_, ?_⟩
  · intro id h
    simp [create_workspace_with_fallback, resolve_existing_workspace, h]
  · intro k id hk hfound hbefore
    exact get_ws_retry_go_first_found find 3 0 k id hk (by simpa using hfound)
      (by simpa using hbefore)
  · intro hag
    exact get_ws_retry_go_congr find find2 3 0 (fun k _ h2 => hag k (by omega))
  · intro id h hfb
    simp [create_workspace_with_fallback, resolve_existing_workspace, h, hfb]
  · intro h hfb
    simp [create_workspace_with_fallback, resolve_existing_workspace, h, hfb]
  · simp [create_workspace_with_fallback, hmsg]

/-- The lookup oracle of the C5 witness: the first attempt fails with a
transient error, the second finds the workspace. -/
def c5find : Nat → Except String (Option String) := fun k =>
  if k = 0 then .error "HTTP 500" else .ok (some "ws-123")

/-- C5 witness: a conflict-flagged creation error resolves to the id the
retry lookup finds on its second attempt, without raising. -/
theorem create_workspace_with_fallback_conflict_resolution_witness :
    isConflictMsg "Error 409: Conflict" = true ∧
    get_workspace_by_name_with_retry c5find 3 = some "ws-123" ∧
    create_workspace_with_fallback .conflict409 c5find (.ok []) "WS" = .ok "ws-123" ∧
    create_workspace_with_fallback (.failed "Error 409: Conflict") c5find (.ok []) "WS" =
      .ok "ws-123" := by
  have h := create_workspace_with_fallback_conflict_resolution c5find c5find
    (.ok []) "WS" "Error 409: Conflict" (by rfl)
  have hr : get_workspace_by_name_with_retry c5find 3 = some "ws-123" := by rfl
  have hok := h.1 "ws-123" hr
  exact ⟨by rfl, hr, hok, by rw [h.2.2.2.2.2, hok]⟩

/-! ## Long-running-operation polls (workspace_item_utilities.py lines
346-366 and spark_utilities.py lines 63-117)

`handle_async_creation` loops `while True`, sleeping `retry_after` and
re-reading the operation: it returns the operation result on a
(lowercased, stripped) status of succeeded, raises on failed or
cancelled, and otherwise polls again — with no bound of any kind.
`statuses k` is the status string read at poll `k`; the runner is given a
finite poll budget and reports `none` when polling outlives it, so a loop
that diverges yields `none` at every budget.

`poll_environment_publish_status` re-reads the environment every round
while its accumulated `elapsed_time` is below `maximum_duration = 1200`
seconds: a request failure is caught and polling continues, an extracted
`state` other than Running (including a missing state) is returned, and
otherwise it sleeps `min(current_poll_interval + jitter, 300)` seconds
(`jitter k` standing for the sampled `random.uniform(0, 0.2 *
current_poll_interval)`), doubles `current_poll_interval` (capped at
`max_poll_interval = 300`, starting from `initial_poll_interval = 15`),
adds the sleep to `elapsed_time` and polls again; past the maximum
duration it raises, quoting the last observed state.  `states k` is poll
`k`'s outcome: an exception, or the state extracted from the response. -/

def handle_async_creation_step (status : String) : Option (Except String Unit) :=
  let s := pyStrip (pyLower status)
  if s = "succeeded" then some (.ok ())
  else if s = "failed" || s = "cancelled" then
    some (.error ("Operation failed with status " ++ s ++ "."))
  else none

def handle_async_creation_run (statuses : Nat → String) :
    Nat → Nat → Option (Except String Unit)
  | _, 0 => none
  | k, fuel + 1 =>
    match handle_async_creation_step (statuses k) with
    | some r => some r
    | none => handle_async_creation_run statuses (k + 1) fuel

/-- The loop never finishes: for every starting poll and every finite
poll budget the runner exhausts the budget. -/
def pollsForever (statuses : Nat → String) : Prop :=
  ∀ k fuel, handle_async_creation_run statuses k fuel = none

def poll_env_go (states : Nat → Except String (Option String))
    (jitter : Nat → Nat) :
    Nat → Nat → Nat → Nat → Option (Option String) →
    Option (Except (Option (Option String)) (Option String))
  | 0, _, elapsed, _, last =>
    if elapsed < 1200 then none else some (.error last)
  | fuel + 1, k, elapsed, cpi, last =>
    if elapsed < 1200 then
      match states k with
      | .ok st =>
        if st = some "Running" then
          poll_env_go states jitter fuel (k + 1)
            (elapsed + min (cpi + jitter k) 300) (min (cpi * 2) 300) (some st)
        else some (.ok st)
      | .error _ =>
        poll_env_go states jitter fuel (k + 1)
          (elapsed + min (cpi + jitter k) 300) (min (cpi * 2) 300) last
    else some (.error last)

/-- The poll from its entry state: nothing observed yet, no time elapsed,
a 15 s interval, and 80 rounds of budget (each round advances elapsed
time by at least 15 s, so 80 rounds always reach the 1200 s bound). -/
def poll_environment_publish_status (states : Nat → Except String (Option String))
    (jitter : Nat → Nat) :
    Option (Except (Option (Option String)) (Option String)) :=
  poll_env_go states jitter 80 0 0 15 none

theorem poll_env_go_terminates (states : Nat → Except String (Option String))
    (jitter : Nat → Nat) :
    ∀ fuel k elapsed cpi last, 15 ≤ cpi → 1200 ≤ elapsed + fuel * 15 →
      poll_env_go states jitter fuel k elapsed cpi last ≠ none := by
  intro fuel
  induction fuel with
  | zero =>
    intro k elapsed cpi last hcpi hbound
    have hel : ¬ elapsed < 1200 := by omega
    simp [poll_env_go, hel]
  | succ n ih =>
    intro k elapsed cpi last hcpi hbound
    have hsleep : 15 ≤ min (cpi + jitter k) 300 := by omega
    have hcpi2 : 15 ≤ min (cpi * 2) 300 := by omega
    rw [poll_env_go]
    by_cases hel : elapsed < 1200
    · rw [if_pos hel]
      split
      · split
        · exact ih _ _ _ _ hcpi2 (by omega)
        · simp
      · exact ih _ _ _ _ hcpi2 (by omega)
    · rw [if_neg hel]
      simp

theorem poll_env_go_ok_spec (states : Nat → Except String (Option String))
    (jitter : Nat → Nat) :
    ∀ fuel k elapsed cpi last st,
      poll_env_go states jitter fuel k elapsed cpi last = some (.ok st) →
      st ≠ some "Running" ∧ ∃ k2, states k2 = .ok st := by
  intro fuel
  induction fuel with
  | zero =>
    intro k elapsed cpi last st h
    rw [poll_env_go] at h
    by_cases hel : elapsed < 1200
    · rw [if_pos hel] at h
      exact absurd h (by simp)
    · rw [if_neg hel] at h
      exact absurd h (by simp)
  | succ n ih =>
    intro k elapsed cpi last st h
    rw [poll_env_go] at h
    by_cases hel : elapsed < 1200
    · rw [if_pos hel] at h
      split at h
      · rename_i st2 hs
        split at h
        · exact ih _ _ _ _ _ h
        · rename_i hst
          simp only [Option.some.injEq, Except.ok.injEq] at h
          exact h ▸ ⟨hst, k, hs⟩
      · exact ih _ _ _ _ _ h
    · rw [if_neg hel] at h
      exact absurd h (by simp)

theorem poll_env_go_timeout_spec (states : Nat → Except String (Option String))
    (jitter : Nat → Nat) :
    ∀ fuel k elapsed cpi last l,
      (last = none ∨ last = some (some "Running")) →
      poll_env_go states jitter fuel k elapsed cpi last = some (.error l) →
      l = none ∨ l = some (some "Running") := by
  intro fuel
  induction fuel with
  | zero =>
    intro k elapsed cpi last l hlast h
    rw [poll_env_go] at h
    by_cases hel : elapsed < 1200
    · rw [if_pos hel] at h
      exact absurd h (by simp)
    · rw [if_neg hel] at h
      simp only [Option.some.injEq, Except.error.injEq] at h
      exact h ▸ hlast
  | succ n ih =>
    intro k elapsed cpi last l hlast h
    rw [poll_env_go] at h
    by_cases hel : elapsed < 1200
    · rw [if_pos hel] at h
      split at h
      · rename_i st2 hs
        split at h
        · rename_i hst
          exact ih _ _ _ _ _ (Or.inr (by rw [hst])) h
        · exact absurd h (by simp)
      · exact ih _ _ _ _ _ hlast h
    · rw [if_neg hel] at h
      simp only [Option.some.injEq, Except.error.injEq] at h
      exact h ▸ hlast

/-- C8 (amended): the Spark environment publish poll is bounded — from its
entry state (15 s interval, 1200 s maximum duration) it reaches a verdict
within 80 rounds for every status and jitter sequence, it returns only a
state other than Running that was actually observed, and its timeout
error quotes the last observed state (a state of Running, or nothing when
no poll succeeded); handle_async_creation returns as soon as it observes
a succeeded status, but its while-True loop has no bound of any kind —
see the counterexample. -/
theorem polling_loops_bounded_spec (states : Nat → Except String (Option String))
    (jitter : Nat → Nat) :
    poll_environment_publish_status states jitter ≠ none ∧
    (∀ st, poll_environment_publish_status states jitter = some (.ok st) →
      st ≠ some "Running" ∧ ∃ k, states k = .ok st) ∧
    (∀ l, poll_environment_publish_status states jitter = some (.error l) →
      l = none ∨ l = some (some "Running")) ∧
    (∀ statuses : Nat → String, ∀ k fuel,
      pyStrip (pyLower (statuses k)) = "succeeded" →
      handle_async_creation_run statuses k (fuel + 1) = some (.ok ())) := by
  refine ⟨?_, ?_, ?_, ?_⟩
  · exact poll_env_go_terminates states jitter 80 0 0 15 none (by omega) (by omega)
  · intro st h
    exact poll_env_go_ok_spec states jitter 80 0 0 15 none st h
  · intro l h
    exact poll_env_go_timeout_spec states jitter 80 0 0 15 none l (Or.inl rfl) h
  · intro statuses k fuel hst
    simp [handle_async_creation_run, handle_async_creation_step, hst]

/-- C8 counterexample: on an operation that always reports Running,
handle_async_creation polls forever — the loop outlives every finite poll
budget, here shown from the first poll with a budget of 100 and in
general. -/
theorem handle_async_creation_no_timeout :
    handle_async_creation_run (fun _ => "Running") 0 100 = none ∧
    pollsForever (fun _ => "Running") := by
  have hstep : handle_async_creation_step "Running" = none := by rfl
  have hall : pollsForever (fun _ => "Running") := by
    intro k fuel
    induction fuel generalizing k with
    | zero => rfl
    | succ n ih =>
      rw [handle_async_creation_run]
      rw [hstep]
      exact ih (k + 1)
  exact ⟨hall 0 100, hall⟩

/-! ## Compensating workspace deletion (workspace_utilities.py lines
549-561; the same block appears in deployment_main.py lines 390-402)

The orchestrator's creation branch creates the workspace, adds the
security groups and deploys; its except-handler, when `workspace_id` is
truthy (creation succeeded), attempts `delete_workspace` inside a nested
try whose handler only prints a warning, and then re-raises the original
exception.  When creation itself raised, `workspace_id` is still None and
no cleanup is attempted.  Each oracle is the outcome of the matching call;
the returned trace lists the calls issued. -/

inductive OrchAction where
  | createWorkspace
  | addSecurityGroup
  | deploy
  | deleteWorkspace (id : String)
deriving DecidableEq

def orchestrator_create_branch (createWs : Except String String)
    (addUsers deployArts cleanup : Except String Unit) :
    Except String String × List OrchAction :=
  match createWs with
  | .error e => (.error e, [.createWorkspace])
  | .ok wid =>
    match addUsers with
    | .error e =>
      match cleanup with
      | .ok _ =>
        (.error e, [.createWorkspace, .addSecurityGroup, .deleteWorkspace wid])
      | .error _ =>
        (.error e, [.createWorkspace, .addSecurityGroup, .deleteWorkspace wid])
    | .ok _ =>
      match deployArts with
      | .error e =>
        match cleanup with
        | .ok _ =>
          (.error e,
            [.createWorkspace, .addSecurityGroup, .deploy, .deleteWorkspace wid])
        | .error _ =>
          (.error e,
            [.createWorkspace, .addSecurityGroup, .deploy, .deleteWorkspace wid])
      | .ok _ => (.ok wid, [.createWorkspace, .addSecurityGroup, .deploy])

/-- C9: when a step after a successful first-time workspace creation
fails, the orchestrator issues the compensating delete_workspace on the
created id and the run's outcome is the original error; the outcome and
the issued calls are the same whatever the compensating deletion's own
outcome, so a failing cleanup never masks the deployment error. -/
theorem orchestrator_compensating_delete (wid e : String)
    (addUsers deployArts cleanup : Except String Unit)
    (hfail : addUsers = .error e ∨ (addUsers = .ok () ∧ deployArts = .error e)) :
    (orchestrator_create_branch (.ok wid) addUsers deployArts cleanup).1 =
      .error e ∧
    OrchAction.deleteWorkspace wid ∈
      (orchestrator_create_branch (.ok wid) addUsers deployArts cleanup).2 ∧
    (∀ cleanup2, orchestrator_create_branch (.ok wid) addUsers deployArts cleanup =
      orchestrator_create_branch (.ok wid) addUsers deployArts cleanup2) := by
  rcases hfail with rfl | ⟨rfl, rfl⟩
  · match cleanup with
    | .ok _ =>
      refine ⟨rfl, by simp [orchestrator_create_branch], ?_⟩
      intro cleanup2
      match cleanup2 with
      | .ok _ => rfl
      | .error _ => rfl
    | .error _ =>
      refine ⟨rfl, by simp [orchestrator_create_branch], ?_⟩
      intro cleanup2
      match cleanup2 with
      | .ok _ => rfl
      | .error _ => rfl
  · match cleanup with
    | .ok _ =>
      refine ⟨rfl, by simp [orchestrator_create_branch], ?_⟩
      intro cleanup2
      match cleanup2 with
      | .ok _ => rfl
      | .error _ => rfl
    | .error _ =>
      refine ⟨rfl, by simp [orchestrator_create_branch], ?_⟩
      intro cleanup2
      match cleanup2 with
      | .ok _ => rfl
      | .error _ => rfl

/-- C9 witness: the deploy step fails after creation succeeded and the
compensating deletion itself fails; the outcome is still the deployment
error, the delete was attempted, and the trace ignores the cleanup
outcome. -/
theorem orchestrator_compensating_delete_witness :
    (orchestrator_create_branch (.ok "ws-1") (.ok ()) (.error "deploy boom")
        (.error "cleanup failed")).1 = .error "deploy boom" ∧
    OrchAction.deleteWorkspace "ws-1" ∈
      (orchestrator_create_branch (.ok "ws-1") (.ok ()) (.error "deploy boom")
        (.error "cleanup failed")).2 ∧
    (∀ cleanup2, orchestrator_create_branch (.ok "ws-1") (.ok ())
        (.error "deploy boom") (.error "cleanup failed") =
      orchestrator_create_branch (.ok "ws-1") (.ok ()) (.error "deploy boom")
        cleanup2) :=
  orchestrator_compensating_delete "ws-1" "deploy boom" (.ok ())
    (.error "deploy boom") (.error "cleanup failed") (Or.inr ⟨rfl, rfl⟩)

end VisaDeploy
